import Mathlib

/-!
Verification development for the compressed stream codecs of
`src/hotspot/share/code/compressedStream.cpp`.

The bit-packed ("sparse") codec `CompressedSparseDataWriteStream` /
`CompressedSparseDataReadStream` is embedded with machine integers as `Nat`
(with explicit `% 256` / `% 4294967296` where the C++ narrows or wraps),
buffers as `List Nat` of byte values, and the sub-byte cursor as explicit
state.  The byte-aligned codec (`CompressedWriteStream` /
`CompressedReadStream`) is embedded with its external UNSIGNED5 varint
primitive abstracted as an encode/decode function pair, exactly as the spec
treats it.
-/

/-! ### Bit-packed (sparse) write stream -/

/-- State of `CompressedSparseDataWriteStream`: the flushed bytes of the
backing buffer (`_buffer` up to `_position`), the pending accumulator
`curr_byte_` (a `uint8_t`) and the bit offset `byte_pos_`. -/
structure CompressedSparseDataWriteStream where
  buffer : List Nat
  curr_byte_ : Nat
  byte_pos_ : Nat
deriving DecidableEq, Repr

/-- Modelled from the spec: `CompressedWriteStream::write(u_char b)` lives in
the header outside this slice; per the spec the GrowableBuffer appends the
byte at the logical position (growing as needed).  The narrowing of the
`int` argument to `u_char` is the `% 256`. -/
def CompressedSparseDataWriteStream.write (s : CompressedSparseDataWriteStream) (b : Nat) :
    CompressedSparseDataWriteStream :=
  { s with buffer := s.buffer ++ [b % 256] }

/-- `CompressedSparseDataWriteStream::write_zero`. -/
def CompressedSparseDataWriteStream.write_zero (s : CompressedSparseDataWriteStream) :
    CompressedSparseDataWriteStream :=
  if s.byte_pos_ + 1 = 8 then
    { (s.write ((s.curr_byte_ <<< 1) % 256)) with curr_byte_ := 0, byte_pos_ := 0 }
  else
    { s with curr_byte_ := (s.curr_byte_ <<< 1) % 256, byte_pos_ := s.byte_pos_ + 1 }

/-- `CompressedSparseDataWriteStream::write_byte_impl`. -/
def CompressedSparseDataWriteStream.write_byte_impl (s : CompressedSparseDataWriteStream)
    (b : Nat) : CompressedSparseDataWriteStream :=
  { (s.write ((s.curr_byte_ <<< (8 - s.byte_pos_)) ||| (b >>> s.byte_pos_))) with
    curr_byte_ := (0xff >>> (8 - s.byte_pos_)) &&& b }

/-- `CompressedSparseDataWriteStream::write_int`. -/
def CompressedSparseDataWriteStream.write_int (s : CompressedSparseDataWriteStream)
    (val : Nat) : CompressedSparseDataWriteStream :=
  if val = 0 then
    s.write_zero
  else
    let s1 := ([5, 4, 3, 2, 1] : List Nat).foldl
      (fun t i =>
        if val >>> (6 * i) ≠ 0 then
          t.write_byte_impl (0xC0 ||| ((val >>> (6 * i)) &&& 0x3f))
        else t) s
    s1.write_byte_impl (0x80 ||| (val &&& 0x3f))

/-- `CompressedSparseDataWriteStream::position`: flushes the pending partial
byte (padding low bits with zero) and returns the byte position together with
the updated stream state. -/
def CompressedSparseDataWriteStream.position (s : CompressedSparseDataWriteStream) :
    Nat × CompressedSparseDataWriteStream :=
  if s.byte_pos_ = 0 then
    (s.buffer.length, s)
  else
    ((s.write (s.curr_byte_ <<< (8 - s.byte_pos_))).buffer.length,
     { (s.write (s.curr_byte_ <<< (8 - s.byte_pos_))) with
       curr_byte_ := 0, byte_pos_ := 0 })

/-- Iterated `write_zero` (`n` consecutive zero-value writes). -/
def CompressedSparseDataWriteStream.writeZeros (s : CompressedSparseDataWriteStream) :
    Nat → CompressedSparseDataWriteStream
  | 0 => s
  | n + 1 => (s.writeZeros n).write_zero

/-- Writing a whole list of unsigned values with `write_int`, in order. -/
def CompressedSparseDataWriteStream.writeList (s : CompressedSparseDataWriteStream)
    (vs : List Nat) : CompressedSparseDataWriteStream :=
  vs.foldl (fun t v => t.write_int v) s

/-- A freshly constructed sparse write stream: empty buffer, byte-aligned. -/
def initSparseWriter : CompressedSparseDataWriteStream :=
  { buffer := [], curr_byte_ := 0, byte_pos_ := 0 }

/-! ### Bit-packed (sparse) read stream -/

/-- State of `CompressedSparseDataReadStream`: the borrowed buffer, the byte
index `_position` and the bit offset `byte_pos_`.  Out-of-bounds buffer
accesses are modelled as reading byte `0`. -/
structure CompressedSparseDataReadStream where
  buffer : List Nat
  position : Nat
  byte_pos_ : Nat
deriving DecidableEq, Repr

/-- `CompressedSparseDataReadStream::read_zero`. -/
def CompressedSparseDataReadStream.read_zero (r : CompressedSparseDataReadStream) :
    Bool × CompressedSparseDataReadStream :=
  if (r.buffer.getD r.position 0) &&& (1 <<< (7 - r.byte_pos_)) ≠ 0 then
    (false, r)
  else if r.byte_pos_ + 1 = 8 then
    (true, { r with position := r.position + 1, byte_pos_ := 0 })
  else
    (true, { r with byte_pos_ := r.byte_pos_ + 1 })

/-- `CompressedSparseDataReadStream::read_byte_impl`: the two shifts are the
C++ expressions after integer promotion, each result narrowed back to
`uint8_t` (the `% 256`). -/
def CompressedSparseDataReadStream.read_byte_impl (r : CompressedSparseDataReadStream) :
    Nat × CompressedSparseDataReadStream :=
  let b1 := ((r.buffer.getD r.position 0) <<< r.byte_pos_) % 256
  let b2 := ((r.buffer.getD (r.position + 1) 0) >>> (8 - r.byte_pos_)) % 256
  (b1 ||| b2, { r with position := r.position + 1 })

/-- The group-consuming `while (true)` loop of
`CompressedSparseDataReadStream::read_int`, with explicit fuel bounding the
number of consumed groups; the accumulator is a `uint32_t`, hence the
`% 4294967296` on the left shift. -/
def CompressedSparseDataReadStream.readGroups :
    Nat → Nat → CompressedSparseDataReadStream →
    Option (Nat × CompressedSparseDataReadStream)
  | 0, _, _ => none
  | fuel + 1, result, r =>
    let p := r.read_byte_impl
    let result1 := ((result <<< 6) % 4294967296) ||| (p.1 &&& 0x3f)
    if p.1 &&& 0xC0 = 0x80 then some (result1, p.2)
    else CompressedSparseDataReadStream.readGroups fuel result1 p.2

/-- `CompressedSparseDataReadStream::read_int` (with group fuel). -/
def CompressedSparseDataReadStream.read_int (fuel : Nat)
    (r : CompressedSparseDataReadStream) :
    Option (Nat × CompressedSparseDataReadStream) :=
  let z := r.read_zero
  if z.1 then some (0, z.2)
  else CompressedSparseDataReadStream.readGroups fuel 0 z.2

/-- Reading `n` consecutive values with `read_int`, in order. -/
def CompressedSparseDataReadStream.readList (fuel : Nat) :
    Nat → CompressedSparseDataReadStream →
    Option (List Nat × CompressedSparseDataReadStream)
  | 0, r => some ([], r)
  | n + 1, r =>
    match CompressedSparseDataReadStream.read_int fuel r with
    | none => none
    | some (v, r1) =>
      match CompressedSparseDataReadStream.readList fuel n r1 with
      | none => none
      | some (vs, r2) => some (v :: vs, r2)

/-! ### Bit-level view of the sparse stream -/

/-- The low `n` bits of `c`, most-significant first, each bit as `0` or `1`. -/
def beBits : Nat → Nat → List Nat
  | 0, _ => []
  | n + 1, c => beBits n (c / 2) ++ [c % 2]

/-- The 8 bits of a byte, most-significant first. -/
def byteBits (b : Nat) : List Nat := beBits 8 b

/-- All bits of a byte sequence, in stream order. -/
def bytesBits : List Nat → List Nat
  | [] => []
  | b :: t => byteBits b ++ bytesBits t

/-- The bit stream a sparse write stream has produced so far: all flushed
bytes followed by the pending bits of the accumulator. -/
def wBits (s : CompressedSparseDataWriteStream) : List Nat :=
  bytesBits s.buffer ++ beBits s.byte_pos_ s.curr_byte_

/-- The non-final framed group bytes `write_int` emits for a value: marker
bits `11`, high group first, leading all-zero groups skipped. -/
def sparsePre (val : Nat) : List Nat :=
  ([5, 4, 3, 2, 1] : List Nat).filterMap
    (fun i =>
      if val >>> (6 * i) ≠ 0 then some (0xC0 ||| ((val >>> (6 * i)) &&& 0x3f))
      else none)

/-- The framed group bytes `write_int` emits for a non-zero value: the
non-final groups (marker bits `11`), high group first with leading all-zero
groups skipped, then the mandatory final group (marker bits `10`). -/
def sparseGroups (val : Nat) : List Nat :=
  sparsePre val ++ [0x80 ||| (val &&& 0x3f)]

/-- The bits `write_int` appends for one value: a single `0` bit for zero,
otherwise the bits of the framed groups. -/
def encBits (val : Nat) : List Nat :=
  if val = 0 then [0] else bytesBits (sparseGroups val)

/-- The bits a list of values encodes to, in order. -/
def encList : List Nat → List Nat
  | [] => []
  | v :: t => encBits v ++ encList t

/-- The write-stream invariant: the bit offset is in `[0, 8)`, the
accumulator holds only the `byte_pos_` pending low bits, and all flushed
buffer cells are bytes. -/
def WInv (s : CompressedSparseDataWriteStream) : Prop :=
  s.byte_pos_ < 8 ∧ s.curr_byte_ < 2 ^ s.byte_pos_ ∧ ∀ b ∈ s.buffer, b < 256

/-- The bit-cursor part of the write-stream invariant (claim C6): offset in
`[0, 8)` and the accumulator holds only the pending low bits. -/
def CursorInv (s : CompressedSparseDataWriteStream) : Prop :=
  s.byte_pos_ < 8 ∧ s.curr_byte_ < 2 ^ s.byte_pos_

/-- The read cursor as an absolute bit index. -/
def rdCursor (r : CompressedSparseDataReadStream) : Nat :=
  8 * r.position + r.byte_pos_

/-- The read-stream sanity predicate: bit offset in `[0, 8)` and a buffer of
bytes. -/
def RInv (r : CompressedSparseDataReadStream) : Prop :=
  r.byte_pos_ < 8 ∧ ∀ b ∈ r.buffer, b < 256

/-- `segAt buf k bs`: the bit stream of `buf` contains exactly the bits `bs`
starting at bit index `k`. -/
def segAt (buf : List Nat) (k : Nat) (bs : List Nat) : Prop :=
  ∃ pre suf, bytesBits buf = pre ++ (bs ++ suf) ∧ pre.length = k

/-! ### Byte-aligned codec (`CompressedWriteStream`/`CompressedReadStream`) -/

/-- Reversal of the low `n` bits of a word. -/
def revBits : Nat → Nat → Nat
  | 0, _ => 0
  | n + 1, x => (x % 2) * 2 ^ n + revBits n (x / 2)

/-- Modelled from the spec: the external `reverse_bits` primitive of
`moveBits.hpp` (outside this slice) — a pure, involutive reversal of the bit
order of a 32-bit word. -/
def reverse_bits (x : Nat) : Nat := revBits 32 x

/-- Modelled from the spec: the external `UNSIGNED5::encode_sign` sign-fold
bijection (outside this slice), mapping a signed 32-bit value to an unsigned
codeword that keeps small magnitudes of either sign compact. -/
def encode_sign (v : Int) : Nat :=
  if 0 ≤ v then (2 * v).toNat else (-2 * v - 1).toNat

/-- Modelled from the spec: the external `UNSIGNED5::decode_sign` inverse of
the sign fold. -/
def decode_sign (n : Nat) : Int :=
  if n % 2 = 0 then ((n / 2 : Nat) : Int) else -(((n / 2 : Nat) : Int) + 1)

/-- The 64-bit two's-complement pattern of a signed value. -/
def toU64 (v : Int) : Nat := (v % 18446744073709551616).toNat

/-- The 32-bit two's-complement pattern of a signed value (`(juint)` cast). -/
def toU32i (v : Int) : Nat := (v % 4294967296).toNat

/-- A 32-bit pattern reinterpreted as a signed `jint`. -/
def sint32 (n : Nat) : Int :=
  if n % 4294967296 < 2147483648 then ((n % 4294967296 : Nat) : Int)
  else ((n % 4294967296 : Nat) : Int) - 4294967296

/-- A 64-bit pattern reinterpreted as a signed `jlong`. -/
def sint64 (n : Nat) : Int :=
  if n % 18446744073709551616 < 9223372036854775808 then
    ((n % 18446744073709551616 : Nat) : Int)
  else ((n % 18446744073709551616 : Nat) : Int) - 18446744073709551616

/-- `low(jlong)`: the low 32-bit two's-complement half, as a signed `jint`. -/
def jlow (v : Int) : Int := sint32 (toU64 v % 4294967296)

/-- `high(jlong)`: the high 32-bit two's-complement half, as a signed
`jint`. -/
def jhigh (v : Int) : Int := sint32 (toU64 v / 4294967296)

/-- `jlong_from(h, l)`: reassembles a signed 64-bit value from its two
32-bit halves, `((jlong)h << 32) | ((jlong)l & 0xFFFFFFFF)`. -/
def jlong_from (h l : Int) : Int :=
  sint64 (toU32i h * 4294967296 + toU32i l)

/-- `CompressedWriteStream::write_double`, with the external UNSIGNED5
`write_int` abstracted as `enc`; the argument is the 64-bit pattern of the
double.  High half first, each half bit-reversed. -/
def CompressedWriteStream.write_double (enc : Nat → List Nat) (p : Nat) : List Nat :=
  enc (reverse_bits (p / 4294967296)) ++ enc (reverse_bits (p % 4294967296))

/-- `CompressedReadStream::read_double` over an abstract self-delimiting
decoder `dec`: reads the two halves in write order, reverses each back, and
reassembles the pattern high:low. -/
def CompressedReadStream.read_double (dec : List Nat → Nat × List Nat)
    (l : List Nat) : Nat × List Nat :=
  let ph := dec l
  let pl := dec ph.2
  ((reverse_bits ph.1 % 4294967296) * 4294967296 + reverse_bits pl.1 % 4294967296,
   pl.2)

/-- `CompressedWriteStream::write_signed_int` (header, per spec §4.2):
varint-encode the sign-folded value. -/
def CompressedWriteStream.write_signed_int (enc : Nat → List Nat) (v : Int) : List Nat :=
  enc (encode_sign v)

/-- `CompressedReadStream::read_signed_int`: un-fold the varint-decoded
codeword. -/
def CompressedReadStream.read_signed_int (dec : List Nat → Nat × List Nat)
    (l : List Nat) : Int × List Nat :=
  let p := dec l
  (decode_sign p.1, p.2)

/-- `CompressedWriteStream::write_long`: low half first, then high half, each
through the signed-int path. -/
def CompressedWriteStream.write_long (enc : Nat → List Nat) (v : Int) : List Nat :=
  CompressedWriteStream.write_signed_int enc (jlow v) ++
    CompressedWriteStream.write_signed_int enc (jhigh v)

/-- `CompressedReadStream::read_long`: reads the low then the high half and
reassembles them with `jlong_from(high, low)`. -/
def CompressedReadStream.read_long (dec : List Nat → Nat × List Nat)
    (l : List Nat) : Int × List Nat :=
  let plo := CompressedReadStream.read_signed_int dec l
  let phi := CompressedReadStream.read_signed_int dec plo.2
  (jlong_from phi.1 plo.1, phi.2)

/-- A trivial concrete self-delimiting codec (one value per cell), used to
instantiate the abstract varint in witnesses. -/
def enc0 (v : Nat) : List Nat := [v]

/-- Decoder matching `enc0`. -/
def dec0 (l : List Nat) : Nat × List Nat := (l.headD 0, l.tail)

/-! ### Growable buffer (`CompressedWriteStream::grow`) -/

/-- Modelled from the spec: `UNSIGNED5::MAX_LENGTH` (outside this slice), the
maximum byte width of one encoded scalar of the external varint primitive. -/
def UNSIGNED5.MAX_LENGTH : Nat := 5

/-- State of `CompressedWriteStream` for the growth claim: the backing cells
(length `_size`) and the logical position. -/
structure CompressedWriteStream where
  buffer : List Nat
  size : Nat
  position : Nat
deriving DecidableEq, Repr

/-- `CompressedWriteStream::grow`: doubles the capacity (with the
`2 * UNSIGNED5::MAX_LENGTH` floor), copies the first `_position` written
bytes into the fresh allocation (the remaining fresh cells are modelled as
zero), and leaves `_position` untouched. -/
def CompressedWriteStream.grow (s : CompressedWriteStream) : CompressedWriteStream :=
  { buffer := s.buffer.take s.position ++
      List.replicate ((if s.size * 2 < UNSIGNED5.MAX_LENGTH * 2 then UNSIGNED5.MAX_LENGTH * 2
                       else s.size * 2) - s.position) 0,
    size := if s.size * 2 < UNSIGNED5.MAX_LENGTH * 2 then UNSIGNED5.MAX_LENGTH * 2
            else s.size * 2,
    position := s.position }

/-! ## Bit-list toolbox -/

theorem beBits_length (n c : Nat) : (beBits n c).length = n := by
  induction n generalizing c with
  | zero => rfl
  | succ m ih => simp [beBits, ih]

theorem beBits_zero (n : Nat) : beBits n 0 = List.replicate n 0 := by
  induction n with
  | zero => rfl
  | succ m ih => rw [beBits, Nat.zero_div, ih, Nat.zero_mod, List.replicate_succ']

theorem beBits_concat (m n a c : Nat) (hc : c < 2 ^ n) :
    beBits (m + n) (a * 2 ^ n + c) = beBits m a ++ beBits n c := by
  induction n generalizing c with
  | zero =>
    have hc0 : c = 0 := by omega
    simp [hc0, beBits]
  | succ k ih =>
    have h2 : a * 2 ^ (k + 1) = (a * 2 ^ k) * 2 := by ring
    have hdiv : (a * 2 ^ (k + 1) + c) / 2 = a * 2 ^ k + c / 2 := by
      rw [h2]; omega
    have hmod : (a * 2 ^ (k + 1) + c) % 2 = c % 2 := by
      rw [h2]; omega
    have hc2 : c / 2 < 2 ^ k := by
      have h2p : (2 : Nat) ^ (k + 1) = 2 * 2 ^ k := by ring
      omega
    have hmk : m + (k + 1) = (m + k) + 1 := by omega
    rw [hmk, beBits, hdiv, hmod, ih _ hc2, beBits, List.append_assoc]

theorem byteBits_len (b : Nat) : (byteBits b).length = 8 := beBits_length 8 b

theorem byteBits_eq (b : Nat) :
    byteBits b = [b / 128 % 2, b / 64 % 2, b / 32 % 2, b / 16 % 2,
      b / 8 % 2, b / 4 % 2, b / 2 % 2, b % 2] := by
  show beBits 8 b = _
  simp [beBits, Nat.div_div_eq_div_mul]

theorem bytesBits_append (l1 l2 : List Nat) :
    bytesBits (l1 ++ l2) = bytesBits l1 ++ bytesBits l2 := by
  induction l1 with
  | nil => rfl
  | cons b t ih => simp [bytesBits, ih]

theorem bytesBits_length (l : List Nat) : (bytesBits l).length = 8 * l.length := by
  induction l with
  | nil => rfl
  | cons b t ih => simp [bytesBits, byteBits_len, ih]; omega

theorem byteBits_getD (b p : Nat) (hp : p < 8) :
    (byteBits b).getD p 0 = b / 2 ^ (7 - p) % 2 := by
  rw [byteBits_eq]
  interval_cases p <;> norm_num

theorem bytesBits_getD (l : List Nat) (q p : Nat) (hp : p < 8) :
    (bytesBits l).getD (8 * q + p) 0 = (byteBits (l.getD q 0)).getD p 0 := by
  induction l generalizing q with
  | nil =>
    have h0 : List.getD ([] : List Nat) q 0 = 0 := by
      simp [List.getD]
    have h1 : (bytesBits []).getD (8 * q + p) 0 = 0 := by
      simp [bytesBits, List.getD]
    rw [h1, h0, show byteBits 0 = [0, 0, 0, 0, 0, 0, 0, 0] from rfl]
    interval_cases p <;> rfl
  | cons b t ih =>
    match q with
    | 0 =>
      rw [show bytesBits (b :: t) = byteBits b ++ bytesBits t from rfl]
      rw [Nat.mul_zero, Nat.zero_add]
      rw [List.getD_append _ _ _ _ (by rw [byteBits_len]; omega)]
      rfl
    | q + 1 =>
      rw [show bytesBits (b :: t) = byteBits b ++ bytesBits t from rfl]
      rw [List.getD_append_right _ _ _ _ (by rw [byteBits_len]; omega)]
      rw [byteBits_len, show 8 * (q + 1) + p - 8 = 8 * q + p by omega]
      exact ih q

theorem bytesBits_getD_any (l : List Nat) (i : Nat) :
    (bytesBits l).getD i 0 = (l.getD (i / 8) 0) / 2 ^ (7 - i % 8) % 2 := by
  have h := bytesBits_getD l (i / 8) (i % 8) (Nat.mod_lt _ (by omega))
  rw [Nat.div_add_mod] at h
  rw [h, byteBits_getD _ _ (Nat.mod_lt _ (by omega))]

theorem bytes_getD_lt (l : List Nat) (hl : ∀ b ∈ l, b < 256) (i : Nat) :
    l.getD i 0 < 256 := by
  induction l generalizing i with
  | nil => simp [List.getD]
  | cons b t ih =>
    match i with
    | 0 => exact hl b (by simp)
    | i + 1 => exact ih (fun x hx => hl x (by simp [hx])) i

/-! ## Arithmetic facts about the C++ bit operations -/

theorem or_shift_add (a y k : Nat) (hy : y < 2 ^ k) : (a <<< k) ||| y = a * 2 ^ k + y := by
  rw [Nat.shiftLeft_eq, Nat.mul_comm a (2 ^ k), ← Nat.mul_add_lt_is_or hy a,
    Nat.mul_comm (2 ^ k) a]

theorem and_63 (x : Nat) : x &&& 0x3f = x % 64 := by
  have h := Nat.and_pow_two_sub_one_eq_mod x 6
  norm_num at h
  exact h

theorem groupByte_eq (x : Nat) : 0xC0 ||| (x &&& 0x3f) = 192 + x % 64 := by
  have h := or_shift_add 3 (x % 64) 6 (by omega)
  norm_num [Nat.shiftLeft_eq] at h
  rw [and_63]
  exact h

theorem finalByte_eq (x : Nat) : 0x80 ||| (x &&& 0x3f) = 128 + x % 64 := by
  have h := or_shift_add 2 (x % 64) 6 (by omega)
  norm_num [Nat.shiftLeft_eq] at h
  rw [and_63]
  exact h

set_option maxRecDepth 4096 in
theorem and_192 : ∀ g, g < 256 → g &&& 0xC0 = g / 64 * 64 := by decide

theorem mask_eq (p : Nat) (hp : p < 8) : 0xff >>> (8 - p) = 2 ^ p - 1 := by
  interval_cases p <;> rfl

theorem and_mask_mod (p b : Nat) (hp : p < 8) : (0xff >>> (8 - p)) &&& b = b % 2 ^ p := by
  rw [mask_eq p hp, Nat.and_comm, Nat.and_pow_two_sub_one_eq_mod]

theorem and_two_pow_ne_zero (x j : Nat) : x &&& 2 ^ j ≠ 0 ↔ x / 2 ^ j % 2 = 1 := by
  have htb : (x &&& 2 ^ j ≠ 0) ↔ x.testBit j = true := by
    constructor
    · intro hne
      by_contra hbit
      have hfalse : x.testBit j = false := Bool.eq_false_iff.mpr hbit
      apply hne
      apply Nat.eq_of_testBit_eq
      intro i
      rw [Nat.testBit_and, Nat.zero_testBit]
      rcases eq_or_ne j i with rfl | hij
      · rw [hfalse, Bool.false_and]
      · rw [Nat.testBit_two_pow_of_ne hij, Bool.and_false]
    · intro hbit hzero
      have h1 : (x &&& 2 ^ j).testBit j = true := by
        rw [Nat.testBit_and, hbit, Nat.testBit_two_pow_self, Bool.and_true]
      rw [hzero, Nat.zero_testBit] at h1
      exact Bool.false_ne_true h1
  rw [htb, Nat.testBit_to_div_mod]
  simp

/-! ## The writer appends bits -/

theorem write_zero_bits (s : CompressedSparseDataWriteStream) (hs : WInv s) :
    wBits s.write_zero = wBits s ++ [0] ∧ WInv s.write_zero := by
  obtain ⟨hp, hc, hb⟩ := hs
  have hc2 : s.curr_byte_ * 2 < 256 := by
    have h2 : (2 : Nat) ^ s.byte_pos_ ≤ 2 ^ 7 := Nat.pow_le_pow_right (by omega) (by omega)
    have h3 : (2 : Nat) ^ 7 = 128 := by norm_num
    omega
  have hsh : (s.curr_byte_ <<< 1) % 256 = s.curr_byte_ * 2 := by
    rw [Nat.shiftLeft_eq, pow_one, Nat.mod_eq_of_lt hc2]
  have hbe : beBits (s.byte_pos_ + 1) (s.curr_byte_ * 2) =
      beBits s.byte_pos_ s.curr_byte_ ++ [0] := by
    rw [beBits, show s.curr_byte_ * 2 / 2 = s.curr_byte_ from by omega,
      show s.curr_byte_ * 2 % 2 = 0 from by omega]
  by_cases h8 : s.byte_pos_ + 1 = 8
  · have heq : s.write_zero =
        { buffer := s.buffer ++ [s.curr_byte_ * 2], curr_byte_ := 0, byte_pos_ := 0 } := by
      unfold CompressedSparseDataWriteStream.write_zero CompressedSparseDataWriteStream.write
      rw [if_pos h8, hsh, Nat.mod_eq_of_lt hc2]
    rw [heq]
    constructor
    · show bytesBits (s.buffer ++ [s.curr_byte_ * 2]) ++ beBits 0 0 =
        (bytesBits s.buffer ++ beBits s.byte_pos_ s.curr_byte_) ++ [0]
      have hbyte : bytesBits [s.curr_byte_ * 2] = beBits s.byte_pos_ s.curr_byte_ ++ [0] := by
        rw [show bytesBits [s.curr_byte_ * 2] = byteBits (s.curr_byte_ * 2) ++ [] from rfl,
          List.append_nil]
        show beBits (7 + 1) (s.curr_byte_ * 2) = _
        rw [show s.byte_pos_ = 7 from by omega] at hbe ⊢
        exact hbe
      rw [show beBits 0 0 = ([] : List Nat) from rfl, List.append_nil, bytesBits_append,
        hbyte, List.append_assoc]
    · exact ⟨show (0 : Nat) < 8 by norm_num, show (0 : Nat) < 2 ^ 0 by norm_num, by
        intro b hbmem
        simp only [List.mem_append, List.mem_singleton] at hbmem
        rcases hbmem with h | h
        · exact hb b h
        · omega⟩
  · have heq : s.write_zero =
        { s with curr_byte_ := s.curr_byte_ * 2, byte_pos_ := s.byte_pos_ + 1 } := by
      unfold CompressedSparseDataWriteStream.write_zero
      rw [if_neg h8, hsh]
    rw [heq]
    constructor
    · show bytesBits s.buffer ++ beBits (s.byte_pos_ + 1) (s.curr_byte_ * 2) =
        (bytesBits s.buffer ++ beBits s.byte_pos_ s.curr_byte_) ++ [0]
      rw [hbe, List.append_assoc]
    · refine ⟨show s.byte_pos_ + 1 < 8 by omega, ?_, hb⟩
      show s.curr_byte_ * 2 < 2 ^ (s.byte_pos_ + 1)
      rw [pow_succ]
      omega

theorem write_byte_impl_bits (s : CompressedSparseDataWriteStream) (hs : WInv s)
    (b : Nat) (hbb : b < 256) :
    wBits (s.write_byte_impl b) = wBits s ++ byteBits b ∧ WInv (s.write_byte_impl b) ∧
    (s.write_byte_impl b).byte_pos_ = s.byte_pos_ := by
  obtain ⟨hp, hc, hball⟩ := hs
  have hA : (2 : Nat) ^ s.byte_pos_ * 2 ^ (8 - s.byte_pos_) = 256 := by
    rw [← pow_add, show s.byte_pos_ + (8 - s.byte_pos_) = 8 from by omega]
    norm_num
  have hd2 : b / 2 ^ s.byte_pos_ < 2 ^ (8 - s.byte_pos_) := by
    rw [Nat.div_lt_iff_lt_mul (Nat.two_pow_pos _), Nat.mul_comm]
    omega
  have hdlt : b >>> s.byte_pos_ < 2 ^ (8 - s.byte_pos_) := by
    rw [Nat.shiftRight_eq_div_pow]
    exact hd2
  have hor : (s.curr_byte_ <<< (8 - s.byte_pos_)) ||| (b >>> s.byte_pos_) =
      s.curr_byte_ * 2 ^ (8 - s.byte_pos_) + b / 2 ^ s.byte_pos_ := by
    rw [or_shift_add _ _ _ hdlt, Nat.shiftRight_eq_div_pow]
  have hout_lt : s.curr_byte_ * 2 ^ (8 - s.byte_pos_) + b / 2 ^ s.byte_pos_ < 256 := by
    have h1 : (s.curr_byte_ + 1) * 2 ^ (8 - s.byte_pos_) =
        s.curr_byte_ * 2 ^ (8 - s.byte_pos_) + 2 ^ (8 - s.byte_pos_) := by ring
    have h2 : (s.curr_byte_ + 1) * 2 ^ (8 - s.byte_pos_) ≤
        2 ^ s.byte_pos_ * 2 ^ (8 - s.byte_pos_) :=
      Nat.mul_le_mul_right _ (by omega)
    omega
  have heq : s.write_byte_impl b =
      { buffer := s.buffer ++ [s.curr_byte_ * 2 ^ (8 - s.byte_pos_) + b / 2 ^ s.byte_pos_],
        curr_byte_ := b % 2 ^ s.byte_pos_, byte_pos_ := s.byte_pos_ } := by
    simp only [CompressedSparseDataWriteStream.write_byte_impl,
      CompressedSparseDataWriteStream.write, hor, Nat.mod_eq_of_lt hout_lt,
      and_mask_mod s.byte_pos_ b hp]
  rw [heq]
  refine ⟨?_, ⟨hp, Nat.mod_lt _ (Nat.two_pow_pos _), ?_⟩, rfl⟩
  · show bytesBits (s.buffer ++ [s.curr_byte_ * 2 ^ (8 - s.byte_pos_) + b / 2 ^ s.byte_pos_]) ++
        beBits s.byte_pos_ (b % 2 ^ s.byte_pos_) =
      (bytesBits s.buffer ++ beBits s.byte_pos_ s.curr_byte_) ++ byteBits b
    have hout_bits :
        bytesBits [s.curr_byte_ * 2 ^ (8 - s.byte_pos_) + b / 2 ^ s.byte_pos_] =
        beBits s.byte_pos_ s.curr_byte_ ++ beBits (8 - s.byte_pos_) (b / 2 ^ s.byte_pos_) := by
      rw [show bytesBits [s.curr_byte_ * 2 ^ (8 - s.byte_pos_) + b / 2 ^ s.byte_pos_] =
        byteBits (s.curr_byte_ * 2 ^ (8 - s.byte_pos_) + b / 2 ^ s.byte_pos_) ++ [] from rfl,
        List.append_nil]
      have h := beBits_concat s.byte_pos_ (8 - s.byte_pos_) s.curr_byte_
        (b / 2 ^ s.byte_pos_) hd2
      rw [show s.byte_pos_ + (8 - s.byte_pos_) = 8 from by omega] at h
      exact h
    have hb_bits : byteBits b =
        beBits (8 - s.byte_pos_) (b / 2 ^ s.byte_pos_) ++
          beBits s.byte_pos_ (b % 2 ^ s.byte_pos_) := by
      have h := beBits_concat (8 - s.byte_pos_) s.byte_pos_ (b / 2 ^ s.byte_pos_)
        (b % 2 ^ s.byte_pos_) (Nat.mod_lt _ (Nat.two_pow_pos _))
      rw [show 8 - s.byte_pos_ + s.byte_pos_ = 8 from by omega, Nat.div_add_mod'] at h
      exact h
    rw [bytesBits_append, hout_bits, hb_bits]
    simp only [List.append_assoc]
  · intro c hm
    simp only [List.mem_append, List.mem_singleton] at hm
    rcases hm with h | h
    · exact hball c h
    · omega

theorem position_bits (s : CompressedSparseDataWriteStream) (hs : WInv s) :
    bytesBits (s.position).2.buffer = wBits s ++ List.replicate ((8 - s.byte_pos_) % 8) 0 ∧
    (s.position).1 = (s.position).2.buffer.length ∧
    (s.position).2.byte_pos_ = 0 ∧ (s.position).2.curr_byte_ = 0 ∧
    (∀ b ∈ (s.position).2.buffer, b < 256) := by
  obtain ⟨hp, hc, hb⟩ := hs
  by_cases h0 : s.byte_pos_ = 0
  · have heq : s.position = (s.buffer.length, s) := by
      unfold CompressedSparseDataWriteStream.position
      rw [if_pos h0]
    have hcurr0 : s.curr_byte_ = 0 := by
      rw [h0] at hc
      omega
    rw [heq]
    refine ⟨?_, rfl, h0, hcurr0, hb⟩
    show bytesBits s.buffer = (bytesBits s.buffer ++ beBits s.byte_pos_ s.curr_byte_) ++
      List.replicate ((8 - s.byte_pos_) % 8) 0
    rw [h0, hcurr0]
    simp [beBits]
  · have hA : (2 : Nat) ^ s.byte_pos_ * 2 ^ (8 - s.byte_pos_) = 256 := by
      rw [← pow_add, show s.byte_pos_ + (8 - s.byte_pos_) = 8 from by omega]
      norm_num
    have hout_lt : s.curr_byte_ * 2 ^ (8 - s.byte_pos_) < 256 := by
      have h1 : (s.curr_byte_ + 1) * 2 ^ (8 - s.byte_pos_) =
          s.curr_byte_ * 2 ^ (8 - s.byte_pos_) + 2 ^ (8 - s.byte_pos_) := by ring
      have h2 : (s.curr_byte_ + 1) * 2 ^ (8 - s.byte_pos_) ≤
          2 ^ s.byte_pos_ * 2 ^ (8 - s.byte_pos_) :=
        Nat.mul_le_mul_right _ (by omega)
      have h3 : (0 : Nat) < 2 ^ (8 - s.byte_pos_) := Nat.two_pow_pos _
      omega
    have hsh : (s.curr_byte_ <<< (8 - s.byte_pos_)) % 256 =
        s.curr_byte_ * 2 ^ (8 - s.byte_pos_) := by
      rw [Nat.shiftLeft_eq, Nat.mod_eq_of_lt hout_lt]
    have heq : s.position =
        (s.buffer.length + 1,
         { buffer := s.buffer ++ [s.curr_byte_ * 2 ^ (8 - s.byte_pos_)],
           curr_byte_ := 0, byte_pos_ := 0 }) := by
      simp only [CompressedSparseDataWriteStream.position,
        CompressedSparseDataWriteStream.write, if_neg h0, hsh, List.length_append,
        List.length_singleton]
    rw [heq]
    refine ⟨?_, by simp, rfl, rfl, ?_⟩
    · show bytesBits (s.buffer ++ [s.curr_byte_ * 2 ^ (8 - s.byte_pos_)]) =
        (bytesBits s.buffer ++ beBits s.byte_pos_ s.curr_byte_) ++ _
      have hbyte : bytesBits [s.curr_byte_ * 2 ^ (8 - s.byte_pos_)] =
          beBits s.byte_pos_ s.curr_byte_ ++ List.replicate (8 - s.byte_pos_) 0 := by
        rw [show bytesBits [s.curr_byte_ * 2 ^ (8 - s.byte_pos_)] =
          byteBits (s.curr_byte_ * 2 ^ (8 - s.byte_pos_)) ++ [] from rfl, List.append_nil]
        have h := beBits_concat s.byte_pos_ (8 - s.byte_pos_) s.curr_byte_ 0
          (Nat.two_pow_pos _)
        rw [show s.byte_pos_ + (8 - s.byte_pos_) = 8 from by omega, Nat.add_zero,
          beBits_zero] at h
        exact h
      rw [bytesBits_append, hbyte, show (8 - s.byte_pos_) % 8 = 8 - s.byte_pos_ from
        Nat.mod_eq_of_lt (by omega), List.append_assoc]
    · intro c hm
      simp only [List.mem_append, List.mem_singleton] at hm
      rcases hm with h | h
      · exact hb c h
      · omega

theorem write_groups_foldl (val : Nat) (is : List Nat) :
    ∀ (s : CompressedSparseDataWriteStream), WInv s →
    wBits (is.foldl (fun t i =>
        if val >>> (6 * i) ≠ 0 then
          t.write_byte_impl (0xC0 ||| ((val >>> (6 * i)) &&& 0x3f))
        else t) s) =
      wBits s ++ bytesBits (is.filterMap (fun i =>
        if val >>> (6 * i) ≠ 0 then some (0xC0 ||| ((val >>> (6 * i)) &&& 0x3f))
        else none)) ∧
    WInv (is.foldl (fun t i =>
        if val >>> (6 * i) ≠ 0 then
          t.write_byte_impl (0xC0 ||| ((val >>> (6 * i)) &&& 0x3f))
        else t) s) := by
  induction is with
  | nil =>
    intro s hs
    exact ⟨by simp [bytesBits], hs⟩
  | cons i t ih =>
    intro s hs
    by_cases hcond : val >>> (6 * i) ≠ 0
    · have hglt : (0xC0 ||| ((val >>> (6 * i)) &&& 0x3f)) < 256 := by
        rw [groupByte_eq]
        omega
      obtain ⟨h1, h2, _⟩ := write_byte_impl_bits s hs _ hglt
      obtain ⟨h3, h4⟩ := ih _ h2
      constructor
      · simp only [List.foldl_cons, if_pos hcond] at h3 ⊢
        rw [h3, h1, List.filterMap_cons_some (by rw [if_pos hcond]),
          show ∀ g gs, bytesBits (g :: gs) = byteBits g ++ bytesBits gs from fun g gs => rfl,
          List.append_assoc]
      · simp only [List.foldl_cons, if_pos hcond]
        exact h4
    · obtain ⟨h3, h4⟩ := ih s hs
      constructor
      · simp only [List.foldl_cons, if_neg hcond] at h3 ⊢
        rw [h3, List.filterMap_cons_none (by rw [if_neg hcond])]
      · simp only [List.foldl_cons, if_neg hcond]
        exact h4

theorem sparseGroups_bound (val : Nat) : ∀ g ∈ sparseGroups val, 128 ≤ g ∧ g < 256 := by
  intro g hg
  unfold sparseGroups sparsePre at hg
  rw [List.mem_append] at hg
  rcases hg with hg | hg
  · rw [List.mem_filterMap] at hg
    obtain ⟨i, _, hgi⟩ := hg
    by_cases hcond : val >>> (6 * i) ≠ 0
    · rw [if_pos hcond, Option.some_inj] at hgi
      rw [← hgi, groupByte_eq]
      omega
    · rw [if_neg hcond] at hgi
      exact absurd hgi (by simp)
  · rw [List.mem_singleton] at hg
    rw [hg, finalByte_eq]
    omega

theorem write_int_bits (s : CompressedSparseDataWriteStream) (hs : WInv s) (val : Nat) :
    wBits (s.write_int val) = wBits s ++ encBits val ∧ WInv (s.write_int val) := by
  by_cases h0 : val = 0
  · subst h0
    have hz := write_zero_bits s hs
    simp only [CompressedSparseDataWriteStream.write_int, if_pos rfl]
    rw [show encBits 0 = [0] from rfl]
    exact hz
  · simp only [CompressedSparseDataWriteStream.write_int, if_neg h0]
    obtain ⟨h1, h2⟩ := write_groups_foldl val [5, 4, 3, 2, 1] s hs
    have hflt : (0x80 ||| (val &&& 0x3f)) < 256 := by
      rw [finalByte_eq]
      omega
    obtain ⟨h3, h4, _⟩ := write_byte_impl_bits _ h2 _ hflt
    refine ⟨?_, h4⟩
    rw [h3, h1]
    rw [show encBits val = bytesBits (sparseGroups val) from by rw [encBits, if_neg h0]]
    unfold sparseGroups sparsePre
    rw [bytesBits_append,
      show bytesBits [0x80 ||| (val &&& 0x3f)] = byteBits (0x80 ||| (val &&& 0x3f)) ++ []
        from rfl,
      List.append_nil, List.append_assoc]

theorem writeList_bits (vs : List Nat) :
    ∀ s : CompressedSparseDataWriteStream, WInv s →
    wBits (s.writeList vs) = wBits s ++ encList vs ∧ WInv (s.writeList vs) := by
  induction vs with
  | nil =>
    intro s hs
    exact ⟨by simp [CompressedSparseDataWriteStream.writeList, encList], hs⟩
  | cons v t ih =>
    intro s hs
    obtain ⟨h1, h2⟩ := write_int_bits s hs v
    obtain ⟨h3, h4⟩ := ih _ h2
    have hfold : s.writeList (v :: t) = (s.write_int v).writeList t := by
      simp only [CompressedSparseDataWriteStream.writeList, List.foldl_cons]
    constructor
    · rw [hfold, h3, h1, show encList (v :: t) = encBits v ++ encList t from rfl,
        List.append_assoc]
    · rw [hfold]
      exact h4

/-! ## The reader consumes bits -/


theorem segAt_split (buf : List Nat) (k : Nat) (bs1 bs2 : List Nat)
    (h : segAt buf k (bs1 ++ bs2)) :
    segAt buf k bs1 ∧ segAt buf (k + bs1.length) bs2 := by
  obtain ⟨pre, suf, hL, hk⟩ := h
  constructor
  · exact ⟨pre, bs2 ++ suf, by rw [hL]; simp only [List.append_assoc], hk⟩
  · refine ⟨pre ++ bs1, suf, by rw [hL]; simp only [List.append_assoc], ?_⟩
    rw [List.length_append, hk]

theorem segAt_head (buf : List Nat) (k b : Nat) (bs : List Nat)
    (h : segAt buf k (b :: bs)) : (bytesBits buf).getD k 0 = b := by
  obtain ⟨pre, suf, hL, hk⟩ := h
  rw [hL, List.getD_append_right _ _ _ _ (by omega), show k - pre.length = 0 from by omega]
  rfl

theorem segAt_len (buf : List Nat) (k : Nat) (bs : List Nat) (h : segAt buf k bs) :
    k + bs.length ≤ 8 * buf.length := by
  obtain ⟨pre, suf, hL, hk⟩ := h
  have hlen := congrArg List.length hL
  rw [bytesBits_length, List.length_append, List.length_append] at hlen
  omega

theorem beBits_inj (n : Nat) : ∀ a b : Nat, a < 2 ^ n → b < 2 ^ n →
    beBits n a = beBits n b → a = b := by
  induction n with
  | zero =>
    intro a b ha hb _
    omega
  | succ m ih =>
    intro a b ha hb h
    rw [beBits, beBits] at h
    obtain ⟨h1, h2⟩ := List.append_inj' h (by simp)
    have e2 : a % 2 = b % 2 := by
      simpa using h2
    have h2m : (2 : Nat) ^ (m + 1) = 2 * 2 ^ m := by ring
    have e1 : a / 2 = b / 2 := ih _ _ (by omega) (by omega) h1
    omega

theorem byteBits_split (x p : Nat) (hp : p < 8) :
    byteBits x = beBits p (x / 2 ^ (8 - p)) ++ beBits (8 - p) (x % 2 ^ (8 - p)) := by
  have h := beBits_concat p (8 - p) (x / 2 ^ (8 - p)) (x % 2 ^ (8 - p))
    (Nat.mod_lt _ (Nat.two_pow_pos _))
  rw [show p + (8 - p) = 8 from by omega, Nat.div_add_mod'] at h
  exact h

theorem list_split_at (buf : List Nat) (pos : Nat) (h : pos < buf.length) :
    buf = buf.take pos ++ buf.getD pos 0 :: buf.drop (pos + 1) := by
  rw [List.getD_eq_getElem buf 0 h, ← List.drop_eq_getElem_cons h, List.take_append_drop]

theorem bytesBits_decomp (buf : List Nat) (pos : Nat) (h : pos < buf.length) :
    bytesBits buf = bytesBits (buf.take pos) ++
      (byteBits (buf.getD pos 0) ++ bytesBits (buf.drop (pos + 1))) ∧
    (bytesBits (buf.take pos)).length = 8 * pos := by
  constructor
  · conv_lhs => rw [list_split_at buf pos h]
    rw [bytesBits_append]
    rfl
  · rw [bytesBits_length, List.length_take]
    omega

theorem val_lt_256 (x y p : Nat) (hp : p < 8) (hy : y < 256) :
    (x % 2 ^ (8 - p)) * 2 ^ p + y / 2 ^ (8 - p) < 256 := by
  have hA : (2 : Nat) ^ (8 - p) * 2 ^ p = 256 := by
    rw [← pow_add, show 8 - p + p = 8 from by omega]
    norm_num
  have hxm : x % 2 ^ (8 - p) < 2 ^ (8 - p) := Nat.mod_lt _ (Nat.two_pow_pos _)
  have hyd : y / 2 ^ (8 - p) < 2 ^ p := by
    rw [Nat.div_lt_iff_lt_mul (Nat.two_pow_pos _), Nat.mul_comm]
    omega
  have h1 : (x % 2 ^ (8 - p) + 1) * 2 ^ p =
      (x % 2 ^ (8 - p)) * 2 ^ p + 2 ^ p := by ring
  have h2 : (x % 2 ^ (8 - p) + 1) * 2 ^ p ≤ 2 ^ (8 - p) * 2 ^ p :=
    Nat.mul_le_mul_right _ (by omega)
  omega

theorem read_byte_core (buf : List Nat) (pos p g : Nat) (hp : p < 8)
    (hb : ∀ b ∈ buf, b < 256) (hg : g < 256)
    (hseg : segAt buf (8 * pos + p) (byteBits g)) :
    (((buf.getD pos 0) <<< p) % 256) ||| (((buf.getD (pos + 1) 0) >>> (8 - p)) % 256) = g := by
  have hx : buf.getD pos 0 < 256 := bytes_getD_lt buf hb pos
  have hy : buf.getD (pos + 1) 0 < 256 := bytes_getD_lt buf hb (pos + 1)
  have hklen := segAt_len buf _ _ hseg
  rw [byteBits_len] at hklen
  have hpos : pos < buf.length := by omega
  have hA : (2 : Nat) ^ (8 - p) * 2 ^ p = 256 := by
    rw [← pow_add, show 8 - p + p = 8 from by omega]
    norm_num
  have hb1 : ((buf.getD pos 0) <<< p) % 256 =
      (buf.getD pos 0 % 2 ^ (8 - p)) * 2 ^ p := by
    rw [Nat.shiftLeft_eq, show (256 : Nat) = 2 ^ (8 - p) * 2 ^ p from hA.symm,
      Nat.mul_mod_mul_right]
  have hb2 : ((buf.getD (pos + 1) 0) >>> (8 - p)) % 256 =
      buf.getD (pos + 1) 0 / 2 ^ (8 - p) := by
    rw [Nat.shiftRight_eq_div_pow]
    exact Nat.mod_eq_of_lt (by
      have := Nat.div_le_self (buf.getD (pos + 1) 0) (2 ^ (8 - p))
      omega)
  have hyd : buf.getD (pos + 1) 0 / 2 ^ (8 - p) < 2 ^ p := by
    rw [Nat.div_lt_iff_lt_mul (Nat.two_pow_pos _), Nat.mul_comm]
    omega
  have hor : ((buf.getD pos 0 % 2 ^ (8 - p)) * 2 ^ p) |||
      (buf.getD (pos + 1) 0 / 2 ^ (8 - p)) =
      (buf.getD pos 0 % 2 ^ (8 - p)) * 2 ^ p + buf.getD (pos + 1) 0 / 2 ^ (8 - p) := by
    have h := or_shift_add (buf.getD pos 0 % 2 ^ (8 - p))
      (buf.getD (pos + 1) 0 / 2 ^ (8 - p)) p hyd
    rw [Nat.shiftLeft_eq] at h
    exact h
  rw [hb1, hb2, hor]
  obtain ⟨pre, suf, hL, hk⟩ := hseg
  obtain ⟨hdec, hdecl⟩ := bytesBits_decomp buf pos hpos
  rw [byteBits_split (buf.getD pos 0) p hp] at hdec
  have hL2 : bytesBits buf =
      (bytesBits (buf.take pos) ++ beBits p (buf.getD pos 0 / 2 ^ (8 - p))) ++
        (beBits (8 - p) (buf.getD pos 0 % 2 ^ (8 - p)) ++ bytesBits (buf.drop (pos + 1))) := by
    rw [hdec]
    simp only [List.append_assoc]
  have hlen1 : (bytesBits (buf.take pos) ++ beBits p (buf.getD pos 0 / 2 ^ (8 - p))).length
      = pre.length := by
    rw [List.length_append, hdecl, beBits_length, hk]
  obtain ⟨-, htail⟩ := List.append_inj (hL2.symm.trans hL) hlen1
  by_cases hp0 : p = 0
  · subst hp0
    have hx8 : buf.getD pos 0 % 2 ^ (8 - 0) = buf.getD pos 0 :=
      Nat.mod_eq_of_lt (show buf.getD pos 0 < 2 ^ (8 - 0) from hx)
    rw [hx8] at htail
    obtain ⟨hfirst, -⟩ := List.append_inj htail (by rw [beBits_length, byteBits_len])
    have hxg : buf.getD pos 0 = g := by
      refine beBits_inj 8 _ _ (show buf.getD pos 0 < 2 ^ 8 from hx)
        (show g < 2 ^ 8 from hg) ?_
      exact hfirst
    rw [hx8, hxg]
    have hydz : buf.getD (pos + 1) 0 / 2 ^ (8 - 0) = 0 :=
      Nat.div_eq_of_lt (show buf.getD (pos + 1) 0 < 2 ^ (8 - 0) from hy)
    rw [hydz]
    norm_num
  · have hpos1 : pos + 1 < buf.length := by omega
    have hdrop : buf.drop (pos + 1) = buf.getD (pos + 1) 0 :: buf.drop (pos + 2) := by
      rw [List.getD_eq_getElem buf 0 hpos1]
      exact List.drop_eq_getElem_cons hpos1
    rw [hdrop, show bytesBits (buf.getD (pos + 1) 0 :: buf.drop (pos + 2)) =
      byteBits (buf.getD (pos + 1) 0) ++ bytesBits (buf.drop (pos + 2)) from rfl,
      byteBits_split (buf.getD (pos + 1) 0) p hp] at htail
    simp only [List.append_assoc] at htail
    have h3 : (beBits (8 - p) (buf.getD pos 0 % 2 ^ (8 - p)) ++
        beBits p (buf.getD (pos + 1) 0 / 2 ^ (8 - p))) ++
        (beBits (8 - p) (buf.getD (pos + 1) 0 % 2 ^ (8 - p)) ++
          bytesBits (buf.drop (pos + 2))) = byteBits g ++ suf := by
      simp only [List.append_assoc]
      exact htail
    obtain ⟨hfirst, -⟩ := List.append_inj h3
      (by rw [List.length_append, beBits_length, beBits_length, byteBits_len]; omega)
    have hcc := beBits_concat (8 - p) p (buf.getD pos 0 % 2 ^ (8 - p))
      (buf.getD (pos + 1) 0 / 2 ^ (8 - p)) hyd
    rw [show 8 - p + p = 8 from by omega] at hcc
    exact beBits_inj 8 _ _
      (show _ < 2 ^ 8 from val_lt_256 (buf.getD pos 0) (buf.getD (pos + 1) 0) p hp hy)
      (show g < 2 ^ 8 from hg) (hcc.trans hfirst)

theorem read_byte_spec (r : CompressedSparseDataReadStream) (hr : RInv r) (g : Nat)
    (hg : g < 256) (hseg : segAt r.buffer (rdCursor r) (byteBits g)) :
    r.read_byte_impl = (g, { r with position := r.position + 1 }) := by
  obtain ⟨hp, hb⟩ := hr
  have hcore := read_byte_core r.buffer r.position r.byte_pos_ g hp hb hg
    (by rw [show 8 * r.position + r.byte_pos_ = rdCursor r from rfl]; exact hseg)
  simp only [CompressedSparseDataReadStream.read_byte_impl]
  rw [hcore]

theorem read_zero_bit1 (r : CompressedSparseDataReadStream) (hr : RInv r)
    (h : (bytesBits r.buffer).getD (rdCursor r) 0 = 1) : r.read_zero = (false, r) := by
  obtain ⟨hp, hb⟩ := hr
  have hbit : (bytesBits r.buffer).getD (rdCursor r) 0 =
      (r.buffer.getD r.position 0) / 2 ^ (7 - r.byte_pos_) % 2 := by
    unfold rdCursor
    rw [bytesBits_getD _ _ _ hp, byteBits_getD _ _ hp]
  unfold CompressedSparseDataReadStream.read_zero
  rw [Nat.one_shiftLeft, if_pos ((and_two_pow_ne_zero _ _).mpr (by rw [← hbit]; exact h))]

theorem read_zero_bit0 (r : CompressedSparseDataReadStream) (hr : RInv r)
    (h : (bytesBits r.buffer).getD (rdCursor r) 0 ≠ 1) :
    ∃ r1, r.read_zero = (true, r1) ∧ r1.buffer = r.buffer ∧
      rdCursor r1 = rdCursor r + 1 ∧ RInv r1 := by
  obtain ⟨hp, hb⟩ := hr
  have hbit : (bytesBits r.buffer).getD (rdCursor r) 0 =
      (r.buffer.getD r.position 0) / 2 ^ (7 - r.byte_pos_) % 2 := by
    unfold rdCursor
    rw [bytesBits_getD _ _ _ hp, byteBits_getD _ _ hp]
  have hcond : ¬ ((r.buffer.getD r.position 0) &&& (1 <<< (7 - r.byte_pos_)) ≠ 0) := by
    rw [Nat.one_shiftLeft, and_two_pow_ne_zero]
    rw [hbit] at h
    exact h
  by_cases h8 : r.byte_pos_ + 1 = 8
  · refine ⟨{ r with position := r.position + 1, byte_pos_ := 0 }, ?_, rfl, ?_,
      ⟨show (0 : Nat) < 8 from by omega, hb⟩⟩
    · unfold CompressedSparseDataReadStream.read_zero
      rw [if_neg hcond, if_pos h8]
    · show 8 * (r.position + 1) + 0 = 8 * r.position + r.byte_pos_ + 1
      omega
  · refine ⟨{ r with byte_pos_ := r.byte_pos_ + 1 }, ?_, rfl, ?_,
      ⟨show r.byte_pos_ + 1 < 8 from by omega, hb⟩⟩
    · unfold CompressedSparseDataReadStream.read_zero
      rw [if_neg hcond, if_neg h8]
    · show 8 * r.position + (r.byte_pos_ + 1) = 8 * r.position + r.byte_pos_ + 1
      omega

theorem finalByte_marker (val : Nat) : (0x80 ||| (val &&& 0x3f)) &&& 0xC0 = 0x80 := by
  rw [finalByte_eq, and_192 _ (by omega)]
  omega

theorem groupByte_marker (w : Nat) : (0xC0 ||| (w &&& 0x3f)) &&& 0xC0 = 0xC0 := by
  rw [groupByte_eq, and_192 _ (by omega)]
  omega

theorem readGroups_spec (pre : List Nat) :
    ∀ (fin acc fuel : Nat) (r : CompressedSparseDataReadStream),
    RInv r → pre.length + 1 ≤ fuel →
    (∀ g ∈ pre, (128 ≤ g ∧ g < 256) ∧ g &&& 0xC0 = 0xC0) →
    fin < 256 → fin &&& 0xC0 = 0x80 →
    segAt r.buffer (rdCursor r) (bytesBits (pre ++ [fin])) →
    CompressedSparseDataReadStream.readGroups fuel acc r =
      some ((pre ++ [fin]).foldl
          (fun a g => ((a <<< 6) % 4294967296) ||| (g &&& 0x3f)) acc,
        { r with position := r.position + (pre.length + 1) }) := by
  induction pre with
  | nil =>
    intro fin acc fuel r hr hfuel hpre hfin hmark hseg
    match fuel, hfuel with
    | f + 1, _ =>
      have hseg1 : segAt r.buffer (rdCursor r) (byteBits fin) := by
        have he : bytesBits ([] ++ [fin]) = byteBits fin ++ [] := rfl
        rw [he] at hseg
        obtain ⟨h1, -⟩ := segAt_split _ _ _ _ hseg
        exact h1
      have hrb := read_byte_spec r hr fin hfin hseg1
      simp only [CompressedSparseDataReadStream.readGroups, hrb, if_pos hmark]
      rfl
  | cons g pre ih =>
    intro fin acc fuel r hr hfuel hpre hfin hmark hseg
    match fuel, hfuel with
    | f + 1, hf =>
      obtain ⟨⟨hg1, hg2⟩, hgm⟩ := hpre g (by simp)
      have hsplit : bytesBits ((g :: pre) ++ [fin]) =
          byteBits g ++ bytesBits (pre ++ [fin]) := rfl
      rw [hsplit] at hseg
      obtain ⟨hseg1, hseg2⟩ := segAt_split _ _ _ _ hseg
      rw [byteBits_len] at hseg2
      have hrb := read_byte_spec r hr g hg2 hseg1
      have hr1 : RInv ({ r with position := r.position + 1 }) := hr
      have hcur1 : rdCursor ({ r with position := r.position + 1 }) = rdCursor r + 8 := by
        show 8 * (r.position + 1) + r.byte_pos_ = 8 * r.position + r.byte_pos_ + 8
        omega
      have hneq : ¬ (g &&& 0xC0 = 0x80) := by
        rw [hgm]
        decide
      have hrec := ih fin (((acc <<< 6) % 4294967296) ||| (g &&& 0x3f)) f
        ({ r with position := r.position + 1 }) hr1 (by simp at hf; omega)
        (fun g2 hg2m => hpre g2 (by simp [hg2m])) hfin hmark
        (by rw [← hcur1] at hseg2; exact hseg2)
      simp only [CompressedSparseDataReadStream.readGroups, hrb, if_neg hneq]
      rw [hrec]
      have hposeq : r.position + 1 + (pre.length + 1) = r.position + ((g :: pre).length + 1) := by
        simp
        omega
      rw [show ((g :: pre) ++ [fin]).foldl
          (fun a g => ((a <<< 6) % 4294967296) ||| (g &&& 0x3f)) acc =
        (pre ++ [fin]).foldl (fun a g => ((a <<< 6) % 4294967296) ||| (g &&& 0x3f))
          (((acc <<< 6) % 4294967296) ||| (g &&& 0x3f)) from rfl, hposeq]

theorem rstep_eq (a g : Nat) :
    ((a <<< 6) % 4294967296) ||| (g &&& 0x3f) = (a % 67108864) * 64 + g % 64 := by
  have h1 : (a <<< 6) % 4294967296 = (a % 67108864) * 64 := by
    rw [Nat.shiftLeft_eq, show ((2 : Nat) ^ 6) = 64 from by norm_num,
      show (4294967296 : Nat) = 67108864 * 64 from by norm_num, Nat.mul_mod_mul_right]
  have h2 := or_shift_add (a % 67108864) (g % 64) 6 (by omega)
  rw [Nat.shiftLeft_eq, show ((2 : Nat) ^ 6) = 64 from by norm_num] at h2
  rw [h1, and_63, h2]

theorem sparseGroups_foldl (val : Nat) (h0 : val ≠ 0) (h32 : val < 4294967296) :
    (sparseGroups val).foldl
      (fun a g => ((a <<< 6) % 4294967296) ||| (g &&& 0x3f)) 0 = val := by
  have d5 : val >>> 30 = val / 1073741824 := by
    rw [Nat.shiftRight_eq_div_pow]
  have d4 : val >>> 24 = val / 16777216 := by
    rw [Nat.shiftRight_eq_div_pow]
  have d3 : val >>> 18 = val / 262144 := by
    rw [Nat.shiftRight_eq_div_pow]
  have d2 : val >>> 12 = val / 4096 := by
    rw [Nat.shiftRight_eq_div_pow]
  have d1 : val >>> 6 = val / 64 := by
    rw [Nat.shiftRight_eq_div_pow]
  rcases Nat.lt_or_ge val 64 with h64 | h64
  · have c5 : val >>> 30 = 0 := by rw [d5]; omega
    have c4 : val >>> 24 = 0 := by rw [d4]; omega
    have c3 : val >>> 18 = 0 := by rw [d3]; omega
    have c2 : val >>> 12 = 0 := by rw [d2]; omega
    have c1 : val >>> 6 = 0 := by rw [d1]; omega
    have hsg : sparseGroups val = [0x80 ||| (val &&& 0x3f)] := by
      simp [sparseGroups, sparsePre, c5, c4, c3, c2, c1]
    rw [hsg]
    simp only [List.foldl_cons, List.foldl_nil]
    rw [rstep_eq, finalByte_eq]
    omega
  rcases Nat.lt_or_ge val 4096 with h12 | h12
  · have c5 : val >>> 30 = 0 := by rw [d5]; omega
    have c4 : val >>> 24 = 0 := by rw [d4]; omega
    have c3 : val >>> 18 = 0 := by rw [d3]; omega
    have c2 : val >>> 12 = 0 := by rw [d2]; omega
    have n1 : val >>> 6 ≠ 0 := by rw [d1]; omega
    have hsg : sparseGroups val =
        [0xC0 ||| ((val >>> 6) &&& 0x3f), 0x80 ||| (val &&& 0x3f)] := by
      simp [sparseGroups, sparsePre, c5, c4, c3, c2, n1]
    rw [hsg]
    simp only [List.foldl_cons, List.foldl_nil]
    rw [rstep_eq, rstep_eq, groupByte_eq, finalByte_eq, d1]
    omega
  rcases Nat.lt_or_ge val 262144 with h18 | h18
  · have c5 : val >>> 30 = 0 := by rw [d5]; omega
    have c4 : val >>> 24 = 0 := by rw [d4]; omega
    have c3 : val >>> 18 = 0 := by rw [d3]; omega
    have n2 : val >>> 12 ≠ 0 := by rw [d2]; omega
    have n1 : val >>> 6 ≠ 0 := by rw [d1]; omega
    have hsg : sparseGroups val =
        [0xC0 ||| ((val >>> 12) &&& 0x3f), 0xC0 ||| ((val >>> 6) &&& 0x3f),
         0x80 ||| (val &&& 0x3f)] := by
      simp [sparseGroups, sparsePre, c5, c4, c3, n2, n1]
    rw [hsg]
    simp only [List.foldl_cons, List.foldl_nil]
    rw [rstep_eq, rstep_eq, rstep_eq, groupByte_eq, groupByte_eq, finalByte_eq, d2, d1]
    omega
  rcases Nat.lt_or_ge val 16777216 with h24 | h24
  · have c5 : val >>> 30 = 0 := by rw [d5]; omega
    have c4 : val >>> 24 = 0 := by rw [d4]; omega
    have n3 : val >>> 18 ≠ 0 := by rw [d3]; omega
    have n2 : val >>> 12 ≠ 0 := by rw [d2]; omega
    have n1 : val >>> 6 ≠ 0 := by rw [d1]; omega
    have hsg : sparseGroups val =
        [0xC0 ||| ((val >>> 18) &&& 0x3f), 0xC0 ||| ((val >>> 12) &&& 0x3f),
         0xC0 ||| ((val >>> 6) &&& 0x3f), 0x80 ||| (val &&& 0x3f)] := by
      simp [sparseGroups, sparsePre, c5, c4, n3, n2, n1]
    rw [hsg]
    simp only [List.foldl_cons, List.foldl_nil]
    rw [rstep_eq, rstep_eq, rstep_eq, rstep_eq, groupByte_eq, groupByte_eq,
      groupByte_eq, finalByte_eq, d3, d2, d1]
    omega
  rcases Nat.lt_or_ge val 1073741824 with h30 | h30
  · have c5 : val >>> 30 = 0 := by rw [d5]; omega
    have n4 : val >>> 24 ≠ 0 := by rw [d4]; omega
    have n3 : val >>> 18 ≠ 0 := by rw [d3]; omega
    have n2 : val >>> 12 ≠ 0 := by rw [d2]; omega
    have n1 : val >>> 6 ≠ 0 := by rw [d1]; omega
    have hsg : sparseGroups val =
        [0xC0 ||| ((val >>> 24) &&& 0x3f), 0xC0 ||| ((val >>> 18) &&& 0x3f),
         0xC0 ||| ((val >>> 12) &&& 0x3f), 0xC0 ||| ((val >>> 6) &&& 0x3f),
         0x80 ||| (val &&& 0x3f)] := by
      simp [sparseGroups, sparsePre, c5, n4, n3, n2, n1]
    rw [hsg]
    simp only [List.foldl_cons, List.foldl_nil]
    rw [rstep_eq, rstep_eq, rstep_eq, rstep_eq, rstep_eq, groupByte_eq, groupByte_eq,
      groupByte_eq, groupByte_eq, finalByte_eq, d4, d3, d2, d1]
    omega
  · have n5 : val >>> 30 ≠ 0 := by rw [d5]; omega
    have n4 : val >>> 24 ≠ 0 := by rw [d4]; omega
    have n3 : val >>> 18 ≠ 0 := by rw [d3]; omega
    have n2 : val >>> 12 ≠ 0 := by rw [d2]; omega
    have n1 : val >>> 6 ≠ 0 := by rw [d1]; omega
    have hsg : sparseGroups val =
        [0xC0 ||| ((val >>> 30) &&& 0x3f), 0xC0 ||| ((val >>> 24) &&& 0x3f),
         0xC0 ||| ((val >>> 18) &&& 0x3f), 0xC0 ||| ((val >>> 12) &&& 0x3f),
         0xC0 ||| ((val >>> 6) &&& 0x3f), 0x80 ||| (val &&& 0x3f)] := by
      simp [sparseGroups, sparsePre, n5, n4, n3, n2, n1]
    rw [hsg]
    simp only [List.foldl_cons, List.foldl_nil]
    rw [rstep_eq, rstep_eq, rstep_eq, rstep_eq, rstep_eq, rstep_eq, groupByte_eq,
      groupByte_eq, groupByte_eq, groupByte_eq, groupByte_eq, finalByte_eq,
      d5, d4, d3, d2, d1]
    omega

theorem sparsePre_marker (val : Nat) :
    ∀ g ∈ sparsePre val, (128 ≤ g ∧ g < 256) ∧ g &&& 0xC0 = 0xC0 := by
  intro g hg
  unfold sparsePre at hg
  rw [List.mem_filterMap] at hg
  obtain ⟨i, -, hgi⟩ := hg
  by_cases hcond : val >>> (6 * i) ≠ 0
  · rw [if_pos hcond, Option.some_inj] at hgi
    refine ⟨?_, ?_⟩
    · rw [← hgi, groupByte_eq]
      omega
    · rw [← hgi]
      exact groupByte_marker _
  · rw [if_neg hcond] at hgi
    exact absurd hgi (by simp)

theorem sparsePre_len (val : Nat) : (sparsePre val).length ≤ 5 := by
  have h := List.length_filterMap_le
    (fun i =>
      if val >>> (6 * i) ≠ 0 then some (0xC0 ||| ((val >>> (6 * i)) &&& 0x3f))
      else none) [5, 4, 3, 2, 1]
  simpa [sparsePre] using h

theorem read_int_spec (r : CompressedSparseDataReadStream) (hr : RInv r) (v : Nat)
    (hv : v < 4294967296) (hseg : segAt r.buffer (rdCursor r) (encBits v)) :
    ∃ r1, CompressedSparseDataReadStream.read_int 6 r = some (v, r1) ∧
      r1.buffer = r.buffer ∧ rdCursor r1 = rdCursor r + (encBits v).length ∧ RInv r1 := by
  by_cases h0 : v = 0
  · subst h0
    have hbit : (bytesBits r.buffer).getD (rdCursor r) 0 = 0 := by
      apply segAt_head r.buffer (rdCursor r) 0 []
      rw [show encBits 0 = [0] from rfl] at hseg
      exact hseg
    obtain ⟨r1, hz, hbuf, hcur, hr1⟩ := read_zero_bit0 r hr (by rw [hbit]; omega)
    refine ⟨r1, ?_, hbuf, ?_, hr1⟩
    · simp only [CompressedSparseDataReadStream.read_int, hz]
      rfl
    · rw [hcur]
      rfl
  · have hvshape : encBits v = bytesBits (sparseGroups v) := by rw [encBits, if_neg h0]
    have hsg : sparseGroups v = sparsePre v ++ [0x80 ||| (v &&& 0x3f)] := rfl
    have hhead : ∃ g1 gs, sparseGroups v = g1 :: gs ∧ 128 ≤ g1 ∧ g1 < 256 := by
      rw [hsg]
      cases hc : sparsePre v with
      | nil =>
        refine ⟨0x80 ||| (v &&& 0x3f), [], rfl, ?_, ?_⟩ <;> rw [finalByte_eq] <;> omega
      | cons a t =>
        obtain ⟨⟨ha1, ha2⟩, -⟩ := sparsePre_marker v a (by rw [hc]; simp)
        exact ⟨a, t ++ [0x80 ||| (v &&& 0x3f)], rfl, ha1, ha2⟩
    obtain ⟨g1, gs, hcons, hg1l, hg1u⟩ := hhead
    have hbit : (bytesBits r.buffer).getD (rdCursor r) 0 = 1 := by
      rw [hvshape, hcons] at hseg
      have hexp : bytesBits (g1 :: gs) = g1 / 128 % 2 ::
          (g1 / 64 % 2 :: g1 / 32 % 2 :: g1 / 16 % 2 :: g1 / 8 % 2 :: g1 / 4 % 2 ::
            g1 / 2 % 2 :: g1 % 2 :: bytesBits gs) := by
        rw [show bytesBits (g1 :: gs) = byteBits g1 ++ bytesBits gs from rfl, byteBits_eq]
        rfl
      rw [hexp] at hseg
      rw [segAt_head _ _ _ _ hseg]
      omega
    have hz := read_zero_bit1 r hr hbit
    have hrg := readGroups_spec (sparsePre v) (0x80 ||| (v &&& 0x3f)) 0 6 r hr
      (by have := sparsePre_len v; omega) (sparsePre_marker v)
      (by rw [finalByte_eq]; omega) (finalByte_marker v)
      (by rw [hvshape, hsg] at hseg; exact hseg)
    refine ⟨{ r with position := r.position + ((sparsePre v).length + 1) }, ?_, rfl, ?_, hr⟩
    · simp only [CompressedSparseDataReadStream.read_int, hz]
      rw [hrg, ← hsg, sparseGroups_foldl v h0 hv]
      rfl
    · show 8 * (r.position + ((sparsePre v).length + 1)) + r.byte_pos_ =
        8 * r.position + r.byte_pos_ + (encBits v).length
      rw [hvshape, hsg, bytesBits_length, List.length_append, List.length_singleton]
      omega

theorem readList_spec (vs : List Nat) :
    ∀ r : CompressedSparseDataReadStream, RInv r → (∀ v ∈ vs, v < 4294967296) →
    segAt r.buffer (rdCursor r) (encList vs) →
    ∃ r1, CompressedSparseDataReadStream.readList 6 vs.length r = some (vs, r1) := by
  induction vs with
  | nil =>
    intro r hr _ _
    exact ⟨r, rfl⟩
  | cons v t ih =>
    intro r hr hv hseg
    rw [show encList (v :: t) = encBits v ++ encList t from rfl] at hseg
    obtain ⟨hs1, hs2⟩ := segAt_split _ _ _ _ hseg
    obtain ⟨r1, hread, hbuf, hcur, hr1⟩ := read_int_spec r hr v (hv v (by simp)) hs1
    obtain ⟨r2, hrest⟩ := ih r1 hr1 (fun w hw => hv w (by simp [hw])) (by
      rw [hbuf, hcur]
      exact hs2)
    refine ⟨r2, ?_⟩
    simp only [CompressedSparseDataReadStream.readList, hread, hrest]

/-! ## Byte-aligned codec: bit reversal, sign fold, 64-bit halves -/

theorem revBits_lt (n : Nat) : ∀ x, revBits n x < 2 ^ n := by
  induction n with
  | zero =>
    intro x
    norm_num [revBits]
  | succ m ih =>
    intro x
    show (x % 2) * 2 ^ m + revBits m (x / 2) < 2 ^ (m + 1)
    have h1 := ih (x / 2)
    have h2 : (2 : Nat) ^ (m + 1) = 2 * 2 ^ m := by ring
    rcases Nat.mod_two_eq_zero_or_one x with h | h <;> rw [h] <;> omega

theorem revBits_testBit (n : Nat) : ∀ x i, i < n →
    (revBits n x).testBit i = x.testBit (n - 1 - i) := by
  induction n with
  | zero =>
    intro x i h
    omega
  | succ m ih =>
    intro x i hi
    show ((x % 2) * 2 ^ m + revBits m (x / 2)).testBit i = _
    rw [Nat.mul_comm (x % 2) (2 ^ m),
      Nat.testBit_mul_pow_two_add (x % 2) (revBits_lt m (x / 2)) i]
    rcases Nat.lt_or_ge i m with him | him
    · rw [if_pos him, ih (x / 2) i him, Nat.testBit_div_two,
        show m - 1 - i + 1 = m + 1 - 1 - i from by omega]
    · have him' : i = m := by omega
      rw [him']
      rw [if_neg (by omega), show m - m = 0 from by omega,
        show m + 1 - 1 - m = 0 from by omega, Nat.testBit_zero, Nat.testBit_zero,
        Nat.mod_mod_of_dvd x (dvd_refl 2)]

theorem reverse_bits_lt (x : Nat) : reverse_bits x < 4294967296 :=
  show revBits 32 x < 2 ^ 32 from revBits_lt 32 x

theorem reverse_bits_involutive (x : Nat) (hx : x < 4294967296) :
    reverse_bits (reverse_bits x) = x := by
  apply Nat.eq_of_testBit_eq
  intro i
  rcases Nat.lt_or_ge i 32 with h | h
  · show (revBits 32 (revBits 32 x)).testBit i = x.testBit i
    rw [revBits_testBit 32 _ i h, revBits_testBit 32 x (32 - 1 - i) (by omega),
      show 32 - 1 - (32 - 1 - i) = i from by omega]
  · have hle : (4294967296 : Nat) ≤ 2 ^ i :=
      le_trans (show (4294967296 : Nat) ≤ 2 ^ 32 from by norm_num)
        (Nat.pow_le_pow_right (by omega) h)
    have h1 : (reverse_bits (reverse_bits x)).testBit i = false :=
      Nat.testBit_lt_two_pow (lt_of_lt_of_le (reverse_bits_lt _) hle)
    have h2 : x.testBit i = false :=
      Nat.testBit_lt_two_pow (lt_of_lt_of_le hx hle)
    rw [h1, h2]

theorem decode_encode_sign (v : Int) (h1 : -2147483648 ≤ v) (h2 : v < 2147483648) :
    decode_sign (encode_sign v) = v ∧ encode_sign v < 4294967296 := by
  unfold encode_sign decode_sign
  by_cases h : 0 ≤ v
  · rw [if_pos h]
    have he : (2 * v).toNat % 2 = 0 := by omega
    rw [if_pos he]
    constructor
    · omega
    · omega
  · rw [if_neg h]
    have he : ¬ ((-2 * v - 1).toNat % 2 = 0) := by omega
    rw [if_neg he]
    constructor
    · omega
    · omega

theorem sint32_range (n : Nat) : -2147483648 ≤ sint32 n ∧ sint32 n < 2147483648 := by
  unfold sint32
  by_cases h : n % 4294967296 < 2147483648
  · rw [if_pos h]
    omega
  · rw [if_neg h]
    have := Nat.mod_lt n (show 0 < 4294967296 from by norm_num)
    omega

theorem toU32i_sint32 (n : Nat) (hn : n < 4294967296) : toU32i (sint32 n) = n := by
  unfold toU32i sint32
  rw [Nat.mod_eq_of_lt hn]
  by_cases h : n < 2147483648
  · rw [if_pos h]
    omega
  · rw [if_neg h]
    omega

theorem toU64_lt (v : Int) : toU64 v < 18446744073709551616 := by
  unfold toU64
  omega

theorem jlow_char (v : Int) : toU32i (jlow v) = toU64 v % 4294967296 :=
  toU32i_sint32 _ (Nat.mod_lt _ (by norm_num))

theorem jhigh_char (v : Int) : toU32i (jhigh v) = toU64 v / 4294967296 := by
  apply toU32i_sint32
  have := toU64_lt v
  omega

theorem jlong_from_halves (v : Int) (h1 : -9223372036854775808 ≤ v)
    (h2 : v < 9223372036854775808) : jlong_from (jhigh v) (jlow v) = v := by
  unfold jlong_from
  rw [jhigh_char, jlow_char, Nat.div_add_mod']
  unfold sint64 toU64
  by_cases h : ((v % 18446744073709551616).toNat) % 18446744073709551616 <
      9223372036854775808
  · rw [if_pos h]
    omega
  · rw [if_neg h]
    omega

/-! ## Zero runs and cursor-invariant helpers -/

theorem writeZeros_state (s : CompressedSparseDataWriteStream)
    (hba : s.byte_pos_ = 0) (hc : s.curr_byte_ = 0) :
    ∀ n, (s.writeZeros n).buffer = s.buffer ++ List.replicate (n / 8) 0 ∧
      (s.writeZeros n).curr_byte_ = 0 ∧ (s.writeZeros n).byte_pos_ = n % 8 := by
  intro n
  induction n with
  | zero =>
    refine ⟨by simp [CompressedSparseDataWriteStream.writeZeros], ?_, ?_⟩
    · show s.curr_byte_ = 0
      exact hc
    · show s.byte_pos_ = 0 % 8
      omega
  | succ m ih =>
    obtain ⟨ib, ic, ip⟩ := ih
    have hstep : s.writeZeros (m + 1) = (s.writeZeros m).write_zero := rfl
    rw [hstep]
    by_cases h8 : m % 8 + 1 = 8
    · have heq : (s.writeZeros m).write_zero =
          { buffer := (s.writeZeros m).buffer ++
              [((s.writeZeros m).curr_byte_ <<< 1) % 256 % 256],
            curr_byte_ := 0, byte_pos_ := 0 } := by
        unfold CompressedSparseDataWriteStream.write_zero
          CompressedSparseDataWriteStream.write
        rw [if_pos (by rw [ip]; exact h8)]
      rw [heq]
      refine ⟨?_, rfl, ?_⟩
      · show (s.writeZeros m).buffer ++ [((s.writeZeros m).curr_byte_ <<< 1) % 256 % 256] = _
        rw [ib, ic, show ((0 <<< 1) % 256 % 256 : Nat) = 0 from rfl,
          show (m + 1) / 8 = m / 8 + 1 from by omega, List.replicate_succ',
          List.append_assoc]
      · show (0 : Nat) = (m + 1) % 8
        omega
    · have heq : (s.writeZeros m).write_zero =
          { s.writeZeros m with
            curr_byte_ := ((s.writeZeros m).curr_byte_ <<< 1) % 256,
            byte_pos_ := (s.writeZeros m).byte_pos_ + 1 } := by
        unfold CompressedSparseDataWriteStream.write_zero
        rw [if_neg (by rw [ip]; exact h8)]
      rw [heq]
      refine ⟨?_, ?_, ?_⟩
      · show (s.writeZeros m).buffer = _
        rw [ib, show (m + 1) / 8 = m / 8 from by omega]
      · show ((s.writeZeros m).curr_byte_ <<< 1) % 256 = 0
        rw [ic]
        rfl
      · show (s.writeZeros m).byte_pos_ + 1 = (m + 1) % 8
        rw [ip]
        omega

theorem writeList_zeros_eq_writeZeros :
    ∀ (n : Nat) (s : CompressedSparseDataWriteStream),
    s.writeList (List.replicate n 0) = s.writeZeros n := by
  have hcomm : ∀ (n : Nat) (s : CompressedSparseDataWriteStream),
      s.write_zero.writeZeros n = (s.writeZeros n).write_zero := by
    intro n
    induction n with
    | zero => intro s; rfl
    | succ m ih =>
      intro s
      show (s.write_zero.writeZeros m).write_zero = _
      rw [ih s]
      rfl
  intro n
  induction n with
  | zero => intro s; rfl
  | succ m ih =>
    intro s
    rw [List.replicate_succ]
    show (s.write_int 0).writeList (List.replicate m 0) = _
    rw [show s.write_int 0 = s.write_zero from rfl, ih s.write_zero, hcomm m s]
    rfl

theorem cursorInv_write_zero (s : CompressedSparseDataWriteStream) (h : CursorInv s) :
    CursorInv s.write_zero := by
  obtain ⟨hp, hc⟩ := h
  have hc2 : s.curr_byte_ * 2 < 256 := by
    have h2 : (2 : Nat) ^ s.byte_pos_ ≤ 2 ^ 7 := Nat.pow_le_pow_right (by omega) (by omega)
    have h3 : (2 : Nat) ^ 7 = 128 := by norm_num
    omega
  have hsh : (s.curr_byte_ <<< 1) % 256 = s.curr_byte_ * 2 := by
    rw [Nat.shiftLeft_eq, pow_one, Nat.mod_eq_of_lt hc2]
  unfold CompressedSparseDataWriteStream.write_zero
  by_cases h8 : s.byte_pos_ + 1 = 8
  · rw [if_pos h8]
    exact ⟨show (0 : Nat) < 8 from by omega, show (0 : Nat) < 2 ^ 0 from by norm_num⟩
  · rw [if_neg h8]
    refine ⟨show s.byte_pos_ + 1 < 8 from by omega, ?_⟩
    show (s.curr_byte_ <<< 1) % 256 < 2 ^ (s.byte_pos_ + 1)
    rw [hsh, pow_succ]
    omega

theorem cursorInv_write_byte_impl (s : CompressedSparseDataWriteStream) (h : CursorInv s)
    (b : Nat) : CursorInv (s.write_byte_impl b) := by
  obtain ⟨hp, hc⟩ := h
  refine ⟨hp, ?_⟩
  show (0xff >>> (8 - s.byte_pos_)) &&& b < 2 ^ s.byte_pos_
  calc (0xff >>> (8 - s.byte_pos_)) &&& b ≤ 0xff >>> (8 - s.byte_pos_) :=
        Nat.and_le_left
    _ = 2 ^ s.byte_pos_ - 1 := mask_eq _ hp
    _ < 2 ^ s.byte_pos_ := by
        have := Nat.two_pow_pos s.byte_pos_
        omega

theorem cursorInv_write_int (s : CompressedSparseDataWriteStream) (h : CursorInv s)
    (v : Nat) : CursorInv (s.write_int v) := by
  unfold CompressedSparseDataWriteStream.write_int
  by_cases h0 : v = 0
  · rw [if_pos h0]
    exact cursorInv_write_zero s h
  · rw [if_neg h0]
    apply cursorInv_write_byte_impl
    have hfold : ∀ (is : List Nat) (t : CompressedSparseDataWriteStream), CursorInv t →
        CursorInv (is.foldl (fun t2 i =>
          if v >>> (6 * i) ≠ 0 then
            t2.write_byte_impl (0xC0 ||| ((v >>> (6 * i)) &&& 0x3f))
          else t2) t) := by
      intro is
      induction is with
      | nil => intro t ht; exact ht
      | cons i t2 ih =>
        intro t ht
        simp only [List.foldl_cons]
        apply ih
        by_cases hcond : v >>> (6 * i) ≠ 0
        · rw [if_pos hcond]
          exact cursorInv_write_byte_impl t ht _
        · rw [if_neg hcond]
          exact ht
    exact hfold _ s h

theorem cursorInv_position (s : CompressedSparseDataWriteStream) (h : CursorInv s) :
    CursorInv (s.position).2 := by
  unfold CompressedSparseDataWriteStream.position
  by_cases h0 : s.byte_pos_ = 0
  · rw [if_pos h0]
    exact h
  · rw [if_neg h0]
    exact ⟨show (0 : Nat) < 8 from by omega, show (0 : Nat) < 2 ^ 0 from by norm_num⟩

/-! ## Claims -/

/-- C1: for every finite sequence of unsigned 32-bit values, writing them in
order with `CompressedSparseDataWriteStream::write_int`, aligning via
`position()`, then reading them back in order with
`CompressedSparseDataReadStream::read_int` starting at the same offset,
returns exactly the original values, across arbitrary bit-cursor offsets and
byte-straddling groups. -/
theorem C1_sparse_write_read_roundtrip (vs : List Nat)
    (hv : ∀ v ∈ vs, v < 4294967296) :
    ∃ r, CompressedSparseDataReadStream.readList 6 vs.length
      { buffer := ((initSparseWriter.writeList vs).position).2.buffer,
        position := 0, byte_pos_ := 0 } = some (vs, r) := by
  have hinit : WInv initSparseWriter :=
    ⟨by decide, by decide, by intro b hb; simp [initSparseWriter] at hb⟩
  obtain ⟨hwb, hwi⟩ := writeList_bits vs initSparseWriter hinit
  obtain ⟨hpb, -, -, -, hpbytes⟩ := position_bits _ hwi
  rw [hwb, show wBits initSparseWriter = [] from rfl, List.nil_append] at hpb
  exact readList_spec vs _ ⟨by norm_num, hpbytes⟩ hv
    ⟨[], List.replicate ((8 - (initSparseWriter.writeList vs).byte_pos_) % 8) 0,
      by rw [hpb]; rfl, rfl⟩

/-- C1 witness: a concrete mixed sequence (zeros, single-group, multi-group,
byte-straddling values) round trips. -/
theorem C1_witness :
    (∀ v ∈ ([0, 1, 255, 65535, 4294967295, 0, 0, 3] : List Nat), v < 4294967296) ∧
    ∃ r, CompressedSparseDataReadStream.readList 6
      ([0, 1, 255, 65535, 4294967295, 0, 0, 3] : List Nat).length
      { buffer := ((initSparseWriter.writeList
          ([0, 1, 255, 65535, 4294967295, 0, 0, 3] : List Nat)).position).2.buffer,
        position := 0, byte_pos_ := 0 } =
      some (([0, 1, 255, 65535, 4294967295, 0, 0, 3] : List Nat), r) :=
  ⟨by decide, C1_sparse_write_read_roundtrip _ (by decide)⟩

/-- C2 evaluation: the code, run on the claim's failing input `0xFFFFFFFF`
from a fresh aligned stream, emits SIX bytes `C3 FF FF FF FF BF` (aligned
position 6), not the five bytes `FF FF FF FF 1F` the claim (and the repo's
own gtest `test_debugInfoCompression.cpp`) expects. -/
theorem C2_encode_ffffffff_eval :
    (initSparseWriter.write_int 0xFFFFFFFF).position =
      (6, { buffer := [0xC3, 0xFF, 0xFF, 0xFF, 0xFF, 0xBF],
            curr_byte_ := 0, byte_pos_ := 0 }) := by
  decide

/-- C3 evaluation: the code, run on the claim's failing input `0xFF` from a
fresh aligned stream, emits the bytes `C3 BF` (aligned position 2), not
`FF 03` as the claim (and the repo's own gtest) expects. -/
theorem C3_encode_ff_eval :
    (initSparseWriter.write_int 0xFF).position =
      (2, { buffer := [0xC3, 0xBF], curr_byte_ := 0, byte_pos_ := 0 }) := by
  decide

/-- C4: for every unsigned 32-bit value the bit-packed encoder emits at most
6 framed 8-bit units — at most 5 non-final groups with marker bits `11`
followed by one mandatory final group with marker bits `10` — and the
decoder's group loop consumes at most 6 groups (fuel 6 suffices) when reading
a value produced by the encoder. -/
theorem C4_group_count (v : Nat) (hv : v < 4294967296) :
    (sparseGroups v).length ≤ 6 ∧
    (∀ g ∈ sparsePre v, g &&& 0xC0 = 0xC0) ∧
    ((0x80 ||| (v &&& 0x3f)) &&& 0xC0 = 0x80) ∧
    sparseGroups v = sparsePre v ++ [0x80 ||| (v &&& 0x3f)] ∧
    (∃ r, CompressedSparseDataReadStream.read_int 6
      { buffer := ((initSparseWriter.write_int v).position).2.buffer,
        position := 0, byte_pos_ := 0 } = some (v, r)) := by
  refine ⟨?_, fun g hg => (sparsePre_marker v g hg).2, finalByte_marker v, rfl, ?_⟩
  · have h5 := sparsePre_len v
    rw [show sparseGroups v = sparsePre v ++ [0x80 ||| (v &&& 0x3f)] from rfl,
      List.length_append, List.length_singleton]
    omega
  · have hinit : WInv initSparseWriter :=
      ⟨by decide, by decide, by intro b hb; simp [initSparseWriter] at hb⟩
    obtain ⟨hwb, hwi⟩ := write_int_bits initSparseWriter hinit v
    obtain ⟨hpb, -, -, -, hpbytes⟩ := position_bits _ hwi
    rw [hwb, show wBits initSparseWriter = [] from rfl, List.nil_append] at hpb
    obtain ⟨r1, hread, -, -, -⟩ := read_int_spec
      ⟨((initSparseWriter.write_int v).position).2.buffer, 0, 0⟩
      ⟨by norm_num, hpbytes⟩ v hv
      ⟨[], List.replicate ((8 - (initSparseWriter.write_int v).byte_pos_) % 8) 0,
        by rw [hpb]; rfl, rfl⟩
    exact ⟨r1, hread⟩

/-- C4 witness: at the all-ones value the encoder uses the full 6 groups and
the decoder reads it back with fuel 6. -/
theorem C4_witness :
    (4294967295 : Nat) < 4294967296 ∧
    ((sparseGroups 4294967295).length ≤ 6 ∧
    (∀ g ∈ sparsePre 4294967295, g &&& 0xC0 = 0xC0) ∧
    ((0x80 ||| ((4294967295 : Nat) &&& 0x3f)) &&& 0xC0 = 0x80) ∧
    sparseGroups 4294967295 = sparsePre 4294967295 ++ [0x80 ||| ((4294967295 : Nat) &&& 0x3f)] ∧
    (∃ r, CompressedSparseDataReadStream.read_int 6
      { buffer := ((initSparseWriter.write_int 4294967295).position).2.buffer,
        position := 0, byte_pos_ := 0 } = some (4294967295, r))) :=
  ⟨by norm_num, C4_group_count 4294967295 (by norm_num)⟩

/-- C5: writing `N ≥ 1` zero values with the bit-packed `write_int` starting
from a byte-aligned cursor and then aligning via `position()` appends exactly
`ceil(N/8) = (N+7)/8` bytes, each `0x00`, and `position()` reports exactly
that count on a fresh stream (in particular, eight zeros then align give one
`0x00` byte). -/
theorem C5_zero_run_bytes (s : CompressedSparseDataWriteStream) (N : Nat) (hN : 1 ≤ N)
    (hba : s.byte_pos_ = 0) (hc : s.curr_byte_ = 0) :
    ((s.writeList (List.replicate N 0)).position).1 = s.buffer.length + (N + 7) / 8 ∧
    ((s.writeList (List.replicate N 0)).position).2.buffer =
      s.buffer ++ List.replicate ((N + 7) / 8) 0 := by
  rw [writeList_zeros_eq_writeZeros]
  obtain ⟨ib, ic, ip⟩ := writeZeros_state s hba hc N
  unfold CompressedSparseDataWriteStream.position
  by_cases hmod : N % 8 = 0
  · rw [if_pos (by rw [ip]; exact hmod), ib]
    constructor
    · rw [List.length_append, List.length_replicate]
      omega
    · rw [show (N + 7) / 8 = N / 8 from by omega]
  · rw [if_neg (by rw [ip]; exact hmod)]
    unfold CompressedSparseDataWriteStream.write
    rw [ic, ip, Nat.zero_shiftLeft]
    constructor
    · show ((s.writeZeros N).buffer ++ [0 % 256]).length = _
      rw [ib, List.length_append, List.length_append, List.length_replicate,
        List.length_singleton]
      omega
    · show (s.writeZeros N).buffer ++ [0 % 256] = _
      rw [ib, show (0 % 256 : Nat) = 0 from rfl, List.append_assoc,
        show (N + 7) / 8 = N / 8 + 1 from by omega, List.replicate_succ']

/-- C5 witness: eight zeros from a fresh stream then align occupy exactly one
byte of value `0x00`. -/
theorem C5_witness :
    1 ≤ 8 ∧ initSparseWriter.byte_pos_ = 0 ∧ initSparseWriter.curr_byte_ = 0 ∧
    ((initSparseWriter.writeList (List.replicate 8 0)).position).1 =
      initSparseWriter.buffer.length + (8 + 7) / 8 ∧
    ((initSparseWriter.writeList (List.replicate 8 0)).position).2.buffer =
      initSparseWriter.buffer ++ List.replicate ((8 + 7) / 8) 0 := by
  refine ⟨by norm_num, rfl, rfl, ?_, ?_⟩
  · exact (C5_zero_run_bytes initSparseWriter 8 (by norm_num) rfl rfl).1
  · exact (C5_zero_run_bytes initSparseWriter 8 (by norm_num) rfl rfl).2

/-- C6: the bit-cursor invariant — `byte_pos_ < 8` and the accumulator holds
only the `byte_pos_` pending low bits (`curr_byte_ < 2 ^ byte_pos_`, so
`byte_pos_ = 0` forces an empty accumulator) — is preserved by `write_zero`,
`write_byte_impl` (any byte), `write_int` (any value), and `position`. -/
theorem C6_cursor_invariant_preserved (s : CompressedSparseDataWriteStream)
    (h : CursorInv s) :
    CursorInv s.write_zero ∧ (∀ b, CursorInv (s.write_byte_impl b)) ∧
    (∀ v, CursorInv (s.write_int v)) ∧ CursorInv (s.position).2 ∧
    (s.byte_pos_ = 0 → s.curr_byte_ = 0) := by
  refine ⟨cursorInv_write_zero s h, fun b => cursorInv_write_byte_impl s h b,
    fun v => cursorInv_write_int s h v, cursorInv_position s h, fun h0 => ?_⟩
  obtain ⟨-, hc⟩ := h
  rw [h0] at hc
  simpa using hc

/-- C6 witness: the invariant holds and is preserved at a concrete mid-byte
state. -/
theorem C6_witness :
    CursorInv { buffer := [17], curr_byte_ := 5, byte_pos_ := 3 } ∧
    (CursorInv ({ buffer := [17], curr_byte_ := 5, byte_pos_ := 3 } :
        CompressedSparseDataWriteStream).write_zero ∧
     (∀ b, CursorInv (({ buffer := [17], curr_byte_ := 5, byte_pos_ := 3 } :
        CompressedSparseDataWriteStream).write_byte_impl b)) ∧
     (∀ v, CursorInv (({ buffer := [17], curr_byte_ := 5, byte_pos_ := 3 } :
        CompressedSparseDataWriteStream).write_int v)) ∧
     CursorInv (({ buffer := [17], curr_byte_ := 5, byte_pos_ := 3 } :
        CompressedSparseDataWriteStream).position).2 ∧
     (({ buffer := [17], curr_byte_ := 5, byte_pos_ := 3 } :
        CompressedSparseDataWriteStream).byte_pos_ = 0 →
      ({ buffer := [17], curr_byte_ := 5, byte_pos_ := 3 } :
        CompressedSparseDataWriteStream).curr_byte_ = 0)) :=
  ⟨⟨by norm_num, by norm_num⟩,
   C6_cursor_invariant_preserved _ ⟨by norm_num, by norm_num⟩⟩

/-- C7: for every 64-bit pattern, `write_double` splits it into high and low
32-bit halves, bit-reverses each half, and encodes high then low;
`read_double` reads in that order, reverses back, and reassembles high:low —
so, given that the abstract UNSIGNED5 varint round-trips every 32-bit value,
`read_double` after `write_double` is bit-exact the identity. -/
theorem C7_double_roundtrip (enc : Nat → List Nat) (dec : List Nat → Nat × List Nat)
    (hrt : ∀ v rest, v < 4294967296 → dec (enc v ++ rest) = (v, rest))
    (p : Nat) (hp : p < 18446744073709551616) (rest : List Nat) :
    CompressedReadStream.read_double dec
      (CompressedWriteStream.write_double enc p ++ rest) = (p, rest) := by
  have hh : p / 4294967296 < 4294967296 := by omega
  have hl : p % 4294967296 < 4294967296 := by omega
  have e1 : dec (enc (reverse_bits (p / 4294967296)) ++
      (enc (reverse_bits (p % 4294967296)) ++ rest)) =
      (reverse_bits (p / 4294967296), enc (reverse_bits (p % 4294967296)) ++ rest) :=
    hrt _ _ (reverse_bits_lt _)
  have e2 : dec (enc (reverse_bits (p % 4294967296)) ++ rest) =
      (reverse_bits (p % 4294967296), rest) :=
    hrt _ _ (reverse_bits_lt _)
  simp only [CompressedWriteStream.write_double, CompressedReadStream.read_double,
    List.append_assoc, e1, e2]
  rw [reverse_bits_involutive _ hh, reverse_bits_involutive _ hl,
    show (p / 4294967296 % 4294967296) * 4294967296 + p % 4294967296 % 4294967296 = p
      from by omega]

/-- C7 witness: a concrete 64-bit pattern (a quiet-NaN-style payload) round
trips through the double path under the trivial one-cell varint codec. -/
theorem C7_witness :
    (∀ v rest, v < 4294967296 → dec0 (enc0 v ++ rest) = (v, rest)) ∧
    (9221120237041090560 : Nat) < 18446744073709551616 ∧
    CompressedReadStream.read_double dec0
      (CompressedWriteStream.write_double enc0 9221120237041090560 ++ [7]) =
      (9221120237041090560, [7]) :=
  ⟨fun v rest _ => rfl, by norm_num,
   C7_double_roundtrip enc0 dec0 (fun v rest _ => rfl) 9221120237041090560
     (by norm_num) [7]⟩

/-- C8: for every signed 64-bit value, `write_long` encodes the low
two's-complement half first and then the high half, each through the
signed-int path (sign-fold then varint), and `read_long` reads low then high
and reassembles with `jlong_from(high, low)` — so, given the varint
round trip, `read_long` after `write_long` is the identity. -/
theorem C8_long_roundtrip (enc : Nat → List Nat) (dec : List Nat → Nat × List Nat)
    (hrt : ∀ v rest, v < 4294967296 → dec (enc v ++ rest) = (v, rest))
    (v : Int) (hlo : -9223372036854775808 ≤ v) (hhi : v < 9223372036854775808)
    (rest : List Nat) :
    CompressedReadStream.read_long dec
      (CompressedWriteStream.write_long enc v ++ rest) = (v, rest) := by
  obtain ⟨hl1, hl2⟩ := sint32_range (toU64 v % 4294967296)
  obtain ⟨hh1, hh2⟩ := sint32_range (toU64 v / 4294967296)
  obtain ⟨hdl, hel⟩ := decode_encode_sign (jlow v) hl1 hl2
  obtain ⟨hdh, heh⟩ := decode_encode_sign (jhigh v) hh1 hh2
  have e1 : dec (enc (encode_sign (jlow v)) ++ (enc (encode_sign (jhigh v)) ++ rest)) =
      (encode_sign (jlow v), enc (encode_sign (jhigh v)) ++ rest) := hrt _ _ hel
  have e2 : dec (enc (encode_sign (jhigh v)) ++ rest) =
      (encode_sign (jhigh v), rest) := hrt _ _ heh
  simp only [CompressedWriteStream.write_long, CompressedWriteStream.write_signed_int,
    CompressedReadStream.read_long, CompressedReadStream.read_signed_int,
    List.append_assoc, e1, e2, hdl, hdh, jlong_from_halves v hlo hhi]

/-- C8 witness: a concrete negative 64-bit value round trips through the long
path under the trivial one-cell varint codec. -/
theorem C8_witness :
    (∀ v rest, v < 4294967296 → dec0 (enc0 v ++ rest) = (v, rest)) ∧
    -9223372036854775808 ≤ (-123456789012345 : Int) ∧
    (-123456789012345 : Int) < 9223372036854775808 ∧
    CompressedReadStream.read_long dec0
      (CompressedWriteStream.write_long enc0 (-123456789012345) ++ [9]) =
      (-123456789012345, [9]) :=
  ⟨fun v rest _ => rfl, by norm_num, by norm_num,
   C8_long_roundtrip enc0 dec0 (fun v rest _ => rfl) (-123456789012345)
     (by norm_num) (by norm_num) [9]⟩

/-- C9: `CompressedWriteStream::grow` makes the new capacity exactly
`max(2·size, 2·UNSIGNED5::MAX_LENGTH)` — hence at least twice the old
capacity and at least the floor — while preserving the first `position`
buffer bytes unchanged and leaving the logical position itself unchanged. -/
theorem C9_grow_spec (s : CompressedWriteStream) (hpos : s.position ≤ s.size)
    (hlen : s.buffer.length = s.size) :
    s.grow.size = max (2 * s.size) (2 * UNSIGNED5.MAX_LENGTH) ∧
    2 * s.size ≤ s.grow.size ∧ 2 * UNSIGNED5.MAX_LENGTH ≤ s.grow.size ∧
    s.grow.buffer.take s.position = s.buffer.take s.position ∧
    s.grow.position = s.position ∧ s.grow.buffer.length = s.grow.size := by
  have htk : (s.buffer.take s.position).length = s.position := by
    rw [List.length_take]
    omega
  unfold CompressedWriteStream.grow UNSIGNED5.MAX_LENGTH at *
  by_cases h : s.size * 2 < 5 * 2
  · rw [if_pos h]
    dsimp only
    refine ⟨by omega, by omega, by omega, ?_, rfl, ?_⟩
    · rw [List.take_append_of_le_length (by omega), List.take_take]
      simp
    · rw [List.length_append, List.length_replicate, htk]
      omega
  · rw [if_neg h]
    dsimp only
    refine ⟨by omega, by omega, by omega, ?_, rfl, ?_⟩
    · rw [List.take_append_of_le_length (by omega), List.take_take]
      simp
    · rw [List.length_append, List.length_replicate, htk]
      omega

/-- C9 witness: growing a concrete stream of capacity 3 holding bytes
`[10, 20, 30]` at position 2. -/
theorem C9_witness :
    (2 : Nat) ≤ 3 ∧ ([10, 20, 30] : List Nat).length = 3 ∧
    (({ buffer := [10, 20, 30], size := 3, position := 2 } :
        CompressedWriteStream).grow.size =
      max (2 * 3) (2 * UNSIGNED5.MAX_LENGTH) ∧
    2 * 3 ≤ ({ buffer := [10, 20, 30], size := 3, position := 2 } :
        CompressedWriteStream).grow.size ∧
    2 * UNSIGNED5.MAX_LENGTH ≤ ({ buffer := [10, 20, 30], size := 3, position := 2 } :
        CompressedWriteStream).grow.size ∧
    ({ buffer := [10, 20, 30], size := 3, position := 2 } :
        CompressedWriteStream).grow.buffer.take 2 = ([10, 20, 30] : List Nat).take 2 ∧
    ({ buffer := [10, 20, 30], size := 3, position := 2 } :
        CompressedWriteStream).grow.position = 2 ∧
    ({ buffer := [10, 20, 30], size := 3, position := 2 } :
        CompressedWriteStream).grow.buffer.length =
      ({ buffer := [10, 20, 30], size := 3, position := 2 } :
        CompressedWriteStream).grow.size) :=
  ⟨by norm_num, by norm_num,
   C9_grow_spec { buffer := [10, 20, 30], size := 3, position := 2 }
     (by norm_num) (by norm_num)⟩

/-- C10: with a byte-aligned read cursor (`byte_pos_ = 0`),
`read_byte_impl` returns exactly `buffer[position]` and both its result and
the resulting cursor are independent of the following buffer byte: on any two
byte buffers agreeing at index `position`, the returned byte and the new
cursor coincide (the `>> (8 - byte_pos_)` term contributes nothing after
integer promotion). -/
theorem C10_read_byte_aligned_independent (buf1 buf2 : List Nat) (pos : Nat)
    (h1 : ∀ b ∈ buf1, b < 256) (h2 : ∀ b ∈ buf2, b < 256)
    (hagree : buf1.getD pos 0 = buf2.getD pos 0) :
    CompressedSparseDataReadStream.read_byte_impl
        { buffer := buf1, position := pos, byte_pos_ := 0 } =
      (buf1.getD pos 0, { buffer := buf1, position := pos + 1, byte_pos_ := 0 }) ∧
    CompressedSparseDataReadStream.read_byte_impl
        { buffer := buf2, position := pos, byte_pos_ := 0 } =
      (buf1.getD pos 0, { buffer := buf2, position := pos + 1, byte_pos_ := 0 }) := by
  have key : ∀ (buf : List Nat), (∀ b ∈ buf, b < 256) →
      CompressedSparseDataReadStream.read_byte_impl
        { buffer := buf, position := pos, byte_pos_ := 0 } =
      (buf.getD pos 0, { buffer := buf, position := pos + 1, byte_pos_ := 0 }) := by
    intro buf hb
    have hx : buf.getD pos 0 < 256 := bytes_getD_lt buf hb pos
    have hy : buf.getD (pos + 1) 0 < 256 := bytes_getD_lt buf hb (pos + 1)
    simp only [CompressedSparseDataReadStream.read_byte_impl]
    rw [show (({ buffer := buf, position := pos, byte_pos_ := 0 } :
        CompressedSparseDataReadStream).buffer.getD
        ({ buffer := buf, position := pos, byte_pos_ := 0 } :
        CompressedSparseDataReadStream).position 0) = buf.getD pos 0 from rfl]
    rw [Nat.shiftLeft_zero, Nat.mod_eq_of_lt hx,
      show ((8 : Nat) - 0) = 8 from rfl, Nat.shiftRight_eq_div_pow,
      Nat.div_eq_of_lt (show buf.getD (pos + 1) 0 < 2 ^ 8 from hy),
      Nat.zero_mod, Nat.or_zero]
  refine ⟨key buf1 h1, ?_⟩
  rw [key buf2 h2, hagree]

/-- C10 witness: two concrete buffers agreeing at index 0 but differing in
the following byte yield the same byte and cursor. -/
theorem C10_witness :
    (∀ b ∈ ([0xAB, 0x11] : List Nat), b < 256) ∧
    (∀ b ∈ ([0xAB, 0xEE, 0x55] : List Nat), b < 256) ∧
    ([0xAB, 0x11] : List Nat).getD 0 0 = ([0xAB, 0xEE, 0x55] : List Nat).getD 0 0 ∧
    (CompressedSparseDataReadStream.read_byte_impl
        { buffer := [0xAB, 0x11], position := 0, byte_pos_ := 0 } =
      (([0xAB, 0x11] : List Nat).getD 0 0,
       { buffer := [0xAB, 0x11], position := 1, byte_pos_ := 0 }) ∧
    CompressedSparseDataReadStream.read_byte_impl
        { buffer := [0xAB, 0xEE, 0x55], position := 0, byte_pos_ := 0 } =
      (([0xAB, 0x11] : List Nat).getD 0 0,
       { buffer := [0xAB, 0xEE, 0x55], position := 1, byte_pos_ := 0 })) :=
  ⟨by decide, by decide, by decide,
   C10_read_byte_aligned_independent [0xAB, 0x11] [0xAB, 0xEE, 0x55] 0
     (by decide) (by decide) (by decide)⟩
